import Mathlib

/-!
Verification of the WooCommerce block-reference documentation generator
(`bin/gen-block-list-reference.js`) and of the CFE workflow regex extraction
steps, via a shallow embedding of the JavaScript source into Lean.

JSON values parsed by `require(filename)` are modelled by `JValue`.  Objects
are modelled as ordered association lists whose list order is the JS own-key
enumeration order (for block.json descriptor objects, whose keys are
non-numeric strings, this is insertion order).  JSON numbers are modelled as
integers, which agrees with JS stringification and truthiness on the
integral values that occur in descriptor files; JSON arrays are modelled as
arrays of strings, the only array shape the generator meaningfully
processes (`obj[key].sort().join`).
-/

inductive JValue where
  | JNull : JValue
  | JBool : Bool → JValue
  | JNum : Int → JValue
  | JStr : String → JValue
  | JArr : List String → JValue
  | JObj : List (String × JValue) → JValue

open JValue

/-- JS `ToString` of a value, as used by template-literal interpolation.
Arrays stringify as their elements joined by a comma. -/
def jsToString : JValue → String
  | JNull => "null"
  | JBool true => "true"
  | JBool false => "false"
  | JNum n => toString n
  | JStr s => s
  | JArr xs => String.intercalate "," xs
  | JObj _ => "[object Object]"

/-- JS truthiness of a value. Objects and arrays, including empty ones, are
always truthy. -/
def truthyV : JValue → Bool
  | JNull => false
  | JBool b => b
  | JNum n => n != 0
  | JStr s => !s.isEmpty
  | JArr _ => true
  | JObj _ => true

/-- Truthiness of a possibly-undefined value (`undefined` is falsy). -/
def truthyO : Option JValue → Bool
  | none => false
  | some v => truthyV v

/-- Property lookup on an association list (JS objects have unique keys, so
first-match lookup agrees with JS property access on well-formed objects). -/
def lookupKV (kvs : List (String × JValue)) (k : String) : Option JValue :=
  match kvs with
  | [] => none
  | kv :: rest => if kv.1 = k then some kv.2 else lookupKV rest k

/-- The JS `in` operator: does the object own the property `k`? -/
def hasKey (kvs : List (String × JValue)) (k : String) : Bool :=
  kvs.any (fun kv => kv.1 = k)

/-- Property access `obj.k` / `obj[k]`; `undefined` (`none`) off objects. -/
def getField (v : JValue) (k : String) : Option JValue :=
  match v with
  | JObj kvs => lookupKV kvs k
  | _ => none

/-- The key-value list of an object (`[]` for non-objects). -/
def objKvs : JValue → List (String × JValue)
  | JObj kvs => kvs
  | _ => []

/-- JS `String.prototype.startsWith`, modelled on the character list. -/
def strStarts (s p : String) : Bool :=
  p.data.isPrefixOf s.data

/-- `getTruthyKeys` from the generator source:
`Object.keys(obj).filter(key => !key.startsWith('__exp'))
  .map(key => obj[key] ? key : strikeout(key))`. -/
def getTruthyKeys (kvs : List (String × JValue)) : List String :=
  ((kvs.map Prod.fst).filter (fun k => !(strStarts k "__exp"))).map
    (fun k => if truthyO (lookupKV kvs k) then k else "~~" ++ k ++ "~~")

/-- Lexicographic (code-unit) strict order on character lists, as used by the
default `Array.prototype.sort` comparator on strings. -/
def lexLt : List Char → List Char → Bool
  | [], [] => false
  | [], _ :: _ => true
  | _ :: _, [] => false
  | a :: as, b :: bs =>
    if a.val < b.val then true
    else if b.val < a.val then false
    else lexLt as bs

def strLeB (s t : String) : Bool := !(lexLt t.data s.data)

def insertSorted (x : String) : List String → List String
  | [] => [x]
  | y :: ys => if strLeB x y then x :: y :: ys else y :: insertSorted x ys

/-- A stable comparison sort; produces the sequence JS default `sort()`
produces on a list of strings. -/
def sortStrs : List String → List String
  | [] => []
  | x :: xs => insertSorted x (sortStrs xs)

/-- Rendering of one entry of `processObjWithInnerKeys` whose value carries
inner names: `key (inner1, inner2, ...)`. -/
def innerEntry (key : String) (inner : List String) : String :=
  key ++ " (" ++ String.intercalate ", " inner ++ ")"

/-- `processObjWithInnerKeys` from the generator source.  Each mapped key of
`getTruthyKeys` is looked up again on the object: array values render their
sorted elements, object values render their sorted truthy inner keys, and
everything else (including the `undefined` lookup that a struck-out
mapped name produces) renders the mapped key alone.  (On the unreachable
`null`-value branch the JS would throw in `Object.keys`; the model renders
the key alone, which no claim exercises.) -/
def processObjWithInnerKeys (kvs : List (String × JValue)) : List String :=
  (getTruthyKeys kvs).map (fun key =>
    match lookupKV kvs key with
    | some (JArr xs) => innerEntry key (sortStrs xs)
    | some (JObj inner) => innerEntry key (sortStrs (getTruthyKeys inner))
    | _ => key)

/-- The in-place augmentation of the `color` sub-object of `supports`: add
`background = true` when absent, then `text = true` when absent (JS property
creation appends at the end of the enumeration order). -/
def augmentColor (ckvs : List (String × JValue)) : List (String × JValue) :=
  let c1 := if hasKey ckvs "background" then ckvs
            else ckvs ++ [("background", JBool true)]
  if hasKey c1 "text" then c1 else c1 ++ [("text", JBool true)]

/-- `augmentSupports` from the generator source.  Only an object-valued
`color` key of an object-valued `supports` is augmented; every other value is
returned unchanged.  (A truthy non-object `supports`, or a `null`-valued
`color`, would make the JS throw on the `in` operator; descriptor files never
contain those and no claim exercises them.) -/
def augmentSupports : JValue → JValue
  | JObj kvs =>
    if hasKey kvs "color" then
      JObj (kvs.map (fun kv =>
        if kv.1 = "color" then
          (kv.1, match kv.2 with
                 | JObj ckvs => JObj (augmentColor ckvs)
                 | v => v)
        else kv))
    else JObj kvs
  | v => v

/-- JS truthiness of an array value: arrays are objects, hence always truthy
(this is what makes the `.sort().join` branch of the template dead). -/
def jsArrayTruthy (_ : List String) : Bool := true

/-- The template fragment `${ list || list.sort().join(", ") }`: the list is
always truthy, so the interpolation stringifies the array itself
(`join(",")`, unsorted); the sorted `", "` join is never evaluated. -/
def arrLine (xs : List String) : String :=
  if jsArrayTruthy xs then String.intercalate "," xs
  else String.intercalate ", " (sortStrs xs)

/-- The template fragment `${ x || "" }`. -/
def orEmpty (o : Option JValue) : String :=
  match o with
  | none => ""
  | some v => if truthyV v then jsToString v else ""

/-- Template interpolation of a possibly-undefined value: `${ x }` renders
the string `undefined` when the property is absent. -/
def jsToStringU (o : Option JValue) : String :=
  match o with
  | none => "undefined"
  | some v => jsToString v

/-- `readBlockJSON` from the generator source, applied to the parsed JSON
value of one descriptor file: returns the markdown fragment, or the empty
string when the `name` field is `undefined`. -/
def readBlockJSON (blockjson : JValue) : String :=
  match getField blockjson "name" with
  | none => ""
  | some nameV =>
    let supportsList : List String :=
      match getField blockjson "supports" with
      | none => []
      | some sup =>
        let aug := augmentSupports sup
        if truthyV aug then processObjWithInnerKeys (objKvs aug) else []
    let attributes : List String :=
      match getField blockjson "attributes" with
      | none => []
      | some a => getTruthyKeys (objKvs a)
    "\n## " ++ jsToStringU (getField blockjson "title") ++ " - "
      ++ jsToString nameV ++ "\n\n"
      ++ orEmpty (getField blockjson "description") ++ "\n\n-\t**Name:** "
      ++ jsToString nameV
      ++ "\n-\t**Category:** " ++ orEmpty (getField blockjson "category")
      ++ "\n-   **Ancestor:** " ++ orEmpty (getField blockjson "ancestor")
      ++ "\n-   **Parent:** " ++ orEmpty (getField blockjson "parent")
      ++ "\n-\t**Supports:** " ++ arrLine supportsList
      ++ "\n-\t**Attributes:** " ++ arrLine attributes
      ++ "\n"

/-- The concatenation `autogen += readBlockJSON(file)` over the discovered
descriptor files (each element of `descs` is the parsed content of one
file, in discovery order). -/
def autogenOf (descs : List JValue) : String :=
  String.join (descs.map readBlockJSON)

/-!
The splice layer.  The target document is a character list.  The JS
`docsContent.replace(TOKEN_PATTERN, autogen)` call, with
`TOKEN_PATTERN = new RegExp(START_TOKEN + "[^]*" + END_TOKEN)` (no flags),
replaces the leftmost-greedy match: the span beginning at the first
occurrence of the start token that is followed (at or after its end) by an
occurrence of the end token, and ending at the last such end-token
occurrence.  A string replacement argument is subject to the ECMAScript
GetSubstitution dollar patterns; with no capture groups in the pattern the
active ones are the doubled dollar, dollar-ampersand (the matched text),
dollar-backquote (the text before the match) and dollar-quote (the text
after the match).
-/

/-- Number of occurrence positions of `p` in `l` (all start positions,
overlapping counted; meaningful for nonempty `p`). -/
def countOcc (p : List Char) : List Char → Nat
  | [] => 0
  | c :: t => (if p.isPrefixOf (c :: t) then 1 else 0) + countOcc p t

/-- Split `l` at the first occurrence of `p`: returns `(pre, post)` with
`l = pre ++ p ++ post` and no occurrence of `p` starting earlier. -/
def findFirstSplit (p : List Char) : List Char → Option (List Char × List Char)
  | [] => if p = [] then some ([], []) else none
  | c :: t =>
    if p.isPrefixOf (c :: t) then some ([], (c :: t).drop p.length)
    else match findFirstSplit p t with
         | some pr => some (c :: pr.1, pr.2)
         | none => none

/-- Split `l` at the last occurrence of `p`: returns `(pre, post)` with
`l = pre ++ p ++ post` and no occurrence of `p` starting later. -/
def findLastSplit (p : List Char) : List Char → Option (List Char × List Char)
  | [] => if p = [] then some ([], []) else none
  | c :: t =>
    match findLastSplit p t with
    | some pr => some (c :: pr.1, pr.2)
    | none =>
      if p.isPrefixOf (c :: t) then some ([], (c :: t).drop p.length)
      else none

/-- The dollar character. -/
def dollarC : Char := Char.ofNat 36

/-- The ampersand character. -/
def ampC : Char := Char.ofNat 38

/-- The backquote character. -/
def bqC : Char := Char.ofNat 96

/-- The single-quote character. -/
def sqC : Char := Char.ofNat 39

/-- ECMAScript GetSubstitution for a string replacement against a pattern
with no capture groups: doubled dollar emits a dollar, dollar-ampersand
emits the matched text, dollar-backquote the text before the match,
dollar-quote the text after the match; any other dollar is literal. -/
def getSubstitution (matched before after : List Char) : List Char → List Char
  | [] => []
  | [c] => [c]
  | c :: d :: rest2 =>
    if c = dollarC then
      if d = dollarC then dollarC :: getSubstitution matched before after rest2
      else if d = ampC then matched ++ getSubstitution matched before after rest2
      else if d = bqC then before ++ getSubstitution matched before after rest2
      else if d = sqC then after ++ getSubstitution matched before after rest2
      else c :: getSubstitution matched before after (d :: rest2)
    else c :: getSubstitution matched before after (d :: rest2)

/-- Does the replacement template contain an effective dollar-ampersand
directive (so that its substitution depends on the matched text)? -/
def usesMatch : List Char → Bool
  | [] => false
  | [_] => false
  | c :: d :: rest2 =>
    if c = dollarC then
      if d = dollarC then usesMatch rest2
      else if d = ampC then true
      else if d = bqC then usesMatch rest2
      else if d = sqC then usesMatch rest2
      else usesMatch (d :: rest2)
    else usesMatch (d :: rest2)

/-- `START_TOKEN` from the generator source. -/
def START_TOKEN : List Char := "<!-- START Autogenerated - DO NOT EDIT -->".data

/-- `END_TOKEN` from the generator source. -/
def END_TOKEN : List Char := "<!-- END Autogenerated - DO NOT EDIT -->".data

/-- `String.prototype.replace` with the flagless regex
`S [^]* E` (`S`, `E` literal token strings) and a string replacement
template: replace the leftmost-greedy matched span, applying
GetSubstitution to the template; no-op when the pattern has no match. -/
def jsReplaceFirst (S E tmpl doc : List Char) : List Char :=
  match findFirstSplit S doc with
  | none => doc
  | some (pre, rest) =>
    match findLastSplit E rest with
    | none => doc
    | some (mid, post) =>
      pre ++ getSubstitution (S ++ mid ++ E) pre post tmpl ++ post

/-- The replacement template built by the script:
`autogen = START_TOKEN + "\n" + autogen + "\n" + END_TOKEN`. -/
def autogenTemplate (frag : String) : List Char :=
  START_TOKEN ++ '\n' :: frag.data ++ '\n' :: END_TOKEN

/-- `docsContent.replace(TOKEN_PATTERN, autogen)`: splice the generated
fragment into the marker-delimited region of the document. -/
def spliceDocs (frag : String) (doc : List Char) : List Char :=
  jsReplaceFirst START_TOKEN END_TOKEN (autogenTemplate frag) doc

/-- One full run of the generator on parsed descriptor contents `descs` and
document `doc`: render and concatenate all fragments, then splice. -/
def generatorRun (descs : List JValue) (doc : List Char) : List Char :=
  spliceDocs (autogenOf descs) doc

/-!
Soundness, minimality/maximality and completeness of the occurrence
scanners, and the occurrence-counting bridge used to state uniqueness
hypotheses decidably.
-/

theorem ffs_sound (p : List Char) :
    ∀ l a b, findFirstSplit p l = some (a, b) → l = a ++ p ++ b := by
  intro l
  induction l with
  | nil =>
    intro a b h
    simp only [findFirstSplit] at h
    split at h
    · next hp =>
      simp only [Option.some.injEq, Prod.mk.injEq] at h
      obtain ⟨rfl, rfl⟩ := h
      simp [hp]
    · simp at h
  | cons c t ih =>
    intro a b h
    simp only [findFirstSplit] at h
    split at h
    · next hp =>
      obtain ⟨t', ht'⟩ := List.isPrefixOf_iff_prefix.mp hp
      simp only [Option.some.injEq, Prod.mk.injEq] at h
      obtain ⟨rfl, rfl⟩ := h
      rw [← ht', List.drop_left]
      simp
    · next hp =>
      split at h
      · next pr hft =>
        simp only [Option.some.injEq, Prod.mk.injEq] at h
        obtain ⟨rfl, rfl⟩ := h
        simp [ih _ _ hft]
      · simp at h

theorem ffs_min (p : List Char) :
    ∀ l a b, findFirstSplit p l = some (a, b) →
      ∀ a' b', l = a' ++ p ++ b' → a.length ≤ a'.length := by
  intro l
  induction l with
  | nil =>
    intro a b h a' b' hd
    simp only [findFirstSplit] at h
    split at h
    · next hp =>
      simp only [Option.some.injEq, Prod.mk.injEq] at h
      obtain ⟨rfl, rfl⟩ := h
      simp
    · simp at h
  | cons c t ih =>
    intro a b h a' b' hd
    simp only [findFirstSplit] at h
    split at h
    · next hp =>
      simp only [Option.some.injEq, Prod.mk.injEq] at h
      obtain ⟨rfl, rfl⟩ := h
      simp
    · next hp =>
      split at h
      · next pr hft =>
        simp only [Option.some.injEq, Prod.mk.injEq] at h
        obtain ⟨rfl, rfl⟩ := h
        match a', hd with
        | [], hd =>
          exfalso
          apply hp
          apply List.isPrefixOf_iff_prefix.mpr
          exact ⟨b', by simpa using hd.symm⟩
        | c' :: a'', hd =>
          simp only [List.cons_append, List.cons.injEq] at hd
          have := ih _ _ hft a'' b' hd.2
          simpa using Nat.succ_le_succ this
      · simp at h

theorem ffs_complete (p : List Char) :
    ∀ l a b, l = a ++ p ++ b → ∃ r, findFirstSplit p l = some r := by
  intro l
  induction l with
  | nil =>
    intro a b hd
    have hp : p = [] := by
      have hlen := congrArg List.length hd
      simp only [List.length_nil, List.length_append] at hlen
      exact List.length_eq_zero.mp (by omega)
    exact ⟨([], []), by simp [findFirstSplit, hp]⟩
  | cons c t ih =>
    intro a b hd
    simp only [findFirstSplit]
    split
    · exact ⟨_, rfl⟩
    · next hp =>
      match a, hd with
      | [], hd =>
        exact absurd (List.isPrefixOf_iff_prefix.mpr ⟨b, by simpa using hd.symm⟩) hp
      | c' :: a'', hd =>
        simp only [List.cons_append, List.cons.injEq] at hd
        obtain ⟨r, hr⟩ := ih a'' b hd.2
        rw [hr]
        exact ⟨_, rfl⟩

theorem fls_sound (p : List Char) :
    ∀ l a b, findLastSplit p l = some (a, b) → l = a ++ p ++ b := by
  intro l
  induction l with
  | nil =>
    intro a b h
    simp only [findLastSplit] at h
    split at h
    · next hp =>
      simp only [Option.some.injEq, Prod.mk.injEq] at h
      obtain ⟨rfl, rfl⟩ := h
      simp [hp]
    · simp at h
  | cons c t ih =>
    intro a b h
    rcases hlt : findLastSplit p t with _ | pr
    · simp only [findLastSplit, hlt] at h
      split at h
      · next hp =>
        obtain ⟨t', ht'⟩ := List.isPrefixOf_iff_prefix.mp hp
        simp only [Option.some.injEq, Prod.mk.injEq] at h
        obtain ⟨rfl, rfl⟩ := h
        rw [← ht', List.drop_left]
        simp
      · simp at h
    · obtain ⟨pa, pb⟩ := pr
      simp only [findLastSplit, hlt] at h
      simp only [Option.some.injEq, Prod.mk.injEq] at h
      obtain ⟨rfl, rfl⟩ := h
      simp [ih _ _ hlt]

theorem fls_complete (p : List Char) :
    ∀ l a b, l = a ++ p ++ b → ∃ r, findLastSplit p l = some r := by
  intro l
  induction l with
  | nil =>
    intro a b hd
    have hp : p = [] := by
      have hlen := congrArg List.length hd
      simp only [List.length_nil, List.length_append] at hlen
      exact List.length_eq_zero.mp (by omega)
    exact ⟨([], []), by simp [findLastSplit, hp]⟩
  | cons c t ih =>
    intro a b hd
    simp only [findLastSplit]
    rcases hfl : findLastSplit p t with _ | pr
    · match a, hd with
      | [], hd =>
        have hp : p.isPrefixOf (c :: t) :=
          List.isPrefixOf_iff_prefix.mpr ⟨b, by simpa using hd.symm⟩
        simp [hp]
      | c' :: a'', hd =>
        simp only [List.cons_append, List.cons.injEq] at hd
        obtain ⟨r, hr⟩ := ih a'' b hd.2
        rw [hr] at hfl
        simp at hfl
    · exact ⟨_, rfl⟩

theorem fls_max (p : List Char) :
    ∀ l a b, findLastSplit p l = some (a, b) →
      ∀ a' b', l = a' ++ p ++ b' → a'.length ≤ a.length := by
  intro l
  induction l with
  | nil =>
    intro a b h a' b' hd
    have hlen := congrArg List.length hd
    simp only [List.length_nil, List.length_append] at hlen
    omega
  | cons c t ih =>
    intro a b h a' b' hd
    rcases hlt : findLastSplit p t with _ | pr
    · simp only [findLastSplit, hlt] at h
      split at h
      · next hp =>
        simp only [Option.some.injEq, Prod.mk.injEq] at h
        obtain ⟨rfl, rfl⟩ := h
        match a', hd with
        | [], hd => simp
        | c' :: a'', hd =>
          exfalso
          simp only [List.cons_append, List.cons.injEq] at hd
          obtain ⟨r, hr⟩ := fls_complete p t a'' b' hd.2
          rw [hlt] at hr
          simp at hr
      · simp at h
    · obtain ⟨pa, pb⟩ := pr
      simp only [findLastSplit, hlt] at h
      simp only [Option.some.injEq, Prod.mk.injEq] at h
      obtain ⟨rfl, rfl⟩ := h
      match a', hd with
      | [], hd => simp
      | c' :: a'', hd =>
        simp only [List.cons_append, List.cons.injEq] at hd
        have := ih _ _ hlt a'' b' hd.2
        simpa using Nat.succ_le_succ this

theorem countOcc_pos (p : List Char) (hp : p ≠ []) :
    ∀ l a b, l = a ++ p ++ b → 1 ≤ countOcc p l := by
  intro l
  induction l with
  | nil =>
    intro a b hd
    have hlen := congrArg List.length hd
    simp only [List.length_nil, List.length_append] at hlen
    exact absurd (List.length_eq_zero.mp (by omega)) hp
  | cons c t ih =>
    intro a b hd
    match a, hd with
    | [], hd =>
      have hpre : p.isPrefixOf (c :: t) :=
        List.isPrefixOf_iff_prefix.mpr ⟨b, by simpa using hd.symm⟩
      simp [countOcc, hpre]
    | c' :: a'', hd =>
      simp only [List.cons_append, List.cons.injEq] at hd
      have := ih a'' b hd.2
      simp only [countOcc]
      split <;> omega

theorem countOcc_unique (p : List Char) (hp : p ≠ []) :
    ∀ l, countOcc p l = 1 → ∀ a b a' b', l = a ++ p ++ b → l = a' ++ p ++ b' →
      a = a' ∧ b = b' := by
  intro l
  induction l with
  | nil =>
    intro h1 a b a' b' hd hd'
    have hlen := congrArg List.length hd
    simp only [List.length_nil, List.length_append] at hlen
    exact absurd (List.length_eq_zero.mp (by omega)) hp
  | cons c t ih =>
    intro h1 a b a' b' hd hd'
    match a, a', hd, hd' with
    | [], [], hd, hd' =>
      refine ⟨rfl, ?_⟩
      have hpp : p ++ b = p ++ b' := by
        have h0 := hd.symm.trans hd'
        simpa using h0
      exact List.append_cancel_left hpp
    | [], c2 :: a2, hd, hd' =>
      exfalso
      have hpre : p.isPrefixOf (c :: t) :=
        List.isPrefixOf_iff_prefix.mpr ⟨b, by simpa using hd.symm⟩
      simp only [countOcc, hpre, if_pos] at h1
      simp only [List.cons_append, List.cons.injEq] at hd'
      have := countOcc_pos p hp t a2 b' hd'.2
      omega
    | c1 :: a1, [], hd, hd' =>
      exfalso
      have hpre : p.isPrefixOf (c :: t) :=
        List.isPrefixOf_iff_prefix.mpr ⟨b', by simpa using hd'.symm⟩
      simp only [countOcc, hpre, if_pos] at h1
      simp only [List.cons_append, List.cons.injEq] at hd
      have := countOcc_pos p hp t a1 b hd.2
      omega
    | c1 :: a1, c2 :: a2, hd, hd' =>
      simp only [List.cons_append, List.cons.injEq] at hd hd'
      have hypos := countOcc_pos p hp t a1 b hd.2
      have hone : countOcc p t = 1 := by
        simp only [countOcc] at h1
        split at h1 <;> omega
      obtain ⟨he1, he2⟩ := ih hone a1 b a2 b' hd.2 hd'.2
      exact ⟨by rw [← hd.1, ← hd'.1, he1], he2⟩

/-- When the document decomposes as `A ++ S ++ M ++ E ++ B` and each token
occurs exactly once, the replace rewrites exactly the marked span, with the
prefix and suffix preserved verbatim. -/
theorem jsReplaceFirst_eq_of_unique (S E tmpl A M B : List Char)
    (hS : S ≠ []) (hE : E ≠ [])
    (h1 : countOcc S (A ++ S ++ M ++ E ++ B) = 1)
    (h2 : countOcc E (A ++ S ++ M ++ E ++ B) = 1) :
    jsReplaceFirst S E tmpl (A ++ S ++ M ++ E ++ B) =
      A ++ getSubstitution (S ++ M ++ E) A B tmpl ++ B := by
  have hdecS : A ++ S ++ M ++ E ++ B = A ++ S ++ (M ++ E ++ B) := by
    simp [List.append_assoc]
  obtain ⟨⟨ra, rb⟩, hr⟩ := ffs_complete S _ A (M ++ E ++ B) hdecS
  have hsound := ffs_sound S _ ra rb hr
  obtain ⟨hra, hrb⟩ :=
    countOcc_unique S hS _ h1 ra rb A (M ++ E ++ B) hsound hdecS
  rw [hra, hrb] at hr
  obtain ⟨⟨sa, sb⟩, hs⟩ := fls_complete E (M ++ E ++ B) M B rfl
  have hsoundE := fls_sound E _ sa sb hs
  have hdocE1 : A ++ S ++ M ++ E ++ B = (A ++ S ++ sa) ++ E ++ sb := by
    conv_lhs => rw [hdecS, hsoundE]
    simp [List.append_assoc]
  obtain ⟨hsa, hsb⟩ :=
    countOcc_unique E hE _ h2 (A ++ S ++ sa) sb (A ++ S ++ M) B hdocE1
      (by simp [List.append_assoc])
  have hsa' : sa = M := by
    have h' : A ++ (S ++ sa) = A ++ (S ++ M) := by
      simpa [List.append_assoc] using hsa
    exact List.append_cancel_left (List.append_cancel_left h')
  rw [hsa', hsb] at hs
  simp only [jsReplaceFirst, hr, hs]

/-- Claim C2: for every target document containing exactly one occurrence of
the start-marker line and one of the end-marker line (start before end), and
every generated fragment, the splice leaves every byte strictly before the
start marker and strictly after the end marker unchanged, and replaces only
the span from start marker through end marker inclusive. -/
theorem claim_C2_splice_frame (A M B : List Char) (frag : String)
    (h1 : countOcc START_TOKEN (A ++ START_TOKEN ++ M ++ END_TOKEN ++ B) = 1)
    (h2 : countOcc END_TOKEN (A ++ START_TOKEN ++ M ++ END_TOKEN ++ B) = 1) :
    spliceDocs frag (A ++ START_TOKEN ++ M ++ END_TOKEN ++ B) =
      A ++ getSubstitution (START_TOKEN ++ M ++ END_TOKEN) A B
            (autogenTemplate frag) ++ B :=
  jsReplaceFirst_eq_of_unique START_TOKEN END_TOKEN (autogenTemplate frag)
    A M B (by decide) (by decide) h1 h2

theorem claim_C2_splice_frame_witness :
    countOcc START_TOKEN
      ("Intro\n".data ++ START_TOKEN ++ "\nold\n".data ++ END_TOKEN ++ "\nOutro".data) = 1 ∧
    countOcc END_TOKEN
      ("Intro\n".data ++ START_TOKEN ++ "\nold\n".data ++ END_TOKEN ++ "\nOutro".data) = 1 ∧
    spliceDocs "NEW"
      ("Intro\n".data ++ START_TOKEN ++ "\nold\n".data ++ END_TOKEN ++ "\nOutro".data) =
      "Intro\n".data ++ getSubstitution
        (START_TOKEN ++ "\nold\n".data ++ END_TOKEN) "Intro\n".data "\nOutro".data
        (autogenTemplate "NEW") ++ "\nOutro".data :=
  ⟨by decide, by decide,
    claim_C2_splice_frame "Intro\n".data "\nold\n".data "\nOutro".data "NEW"
      (by decide) (by decide)⟩

/-- Claim C8: when the start-marker/end-marker pattern has no match in the
document (no start-marker occurrence with an end-marker occurrence at or
after its end), the splice is a silent no-op: the document is returned
byte-identical and no error arises. -/
theorem claim_C8_splice_noop (doc : List Char) (frag : String)
    (h : ¬ ∃ a m b, doc = a ++ START_TOKEN ++ m ++ END_TOKEN ++ b) :
    spliceDocs frag doc = doc := by
  rcases hf : findFirstSplit START_TOKEN doc with _ | pr
  · simp [spliceDocs, jsReplaceFirst, hf]
  · obtain ⟨pre, rest⟩ := pr
    have hdoc := ffs_sound _ _ _ _ hf
    rcases hl : findLastSplit END_TOKEN rest with _ | qr
    · simp [spliceDocs, jsReplaceFirst, hf, hl]
    · obtain ⟨mid, post⟩ := qr
      exfalso
      have hrest := fls_sound _ _ _ _ hl
      exact h ⟨pre, mid, post, by rw [hdoc, hrest]; simp [List.append_assoc]⟩

theorem claim_C8_splice_noop_witness :
    spliceDocs "X" "no markers here".data = "no markers here".data :=
  claim_C8_splice_noop "no markers here".data "X" (by
    rintro ⟨a, m, b, habs⟩
    have hl := congrArg List.length habs
    have h1 : START_TOKEN.length = 42 := by decide
    have h2 : END_TOKEN.length = 40 := by decide
    have h3 : ("no markers here".data).length = 15 := by decide
    simp only [List.length_append, h1, h2, h3] at hl
    omega)

/-- The concrete document exhibiting two marker pairs with caller content
between them, used for claim C10. -/
def twoRegionDoc : List Char :=
  "P".data ++ START_TOKEN ++ "1".data ++ END_TOKEN ++ "CALLER".data
    ++ START_TOKEN ++ "2".data ++ END_TOKEN ++ "Q".data

set_option maxRecDepth 100000 in
/-- Claim C10: on a document containing more than one marker pair (each token
occurs twice), the splice replaces the single span running from the first
start-marker occurrence through the last end-marker occurrence, so the
caller-owned text lying between the two marker regions is removed from the
result rather than preserved. -/
theorem claim_C10_greedy_two_pairs :
    countOcc START_TOKEN twoRegionDoc = 2 ∧
    countOcc END_TOKEN twoRegionDoc = 2 ∧
    spliceDocs "F" twoRegionDoc =
      "P".data ++ START_TOKEN ++ '\n' :: "F".data ++ '\n' :: END_TOKEN ++ "Q".data ∧
    countOcc "CALLER".data (spliceDocs "F" twoRegionDoc) = 0 :=
  ⟨by decide, by decide, by decide, by decide⟩

/-!
Association-list and sorting helper lemmas for the renderer claims.
-/

theorem lookupKV_isSome_iff_hasKey (kvs : List (String × JValue)) (k : String) :
    (lookupKV kvs k).isSome = hasKey kvs k := by
  induction kvs with
  | nil => rfl
  | cons kv rest ih =>
    simp only [lookupKV, hasKey, List.any_cons]
    by_cases h : kv.1 = k
    · simp [h]
    · simp only [if_neg h, hasKey] at ih ⊢
      rw [ih]
      simp [h]

theorem lookupKV_append (xs ys : List (String × JValue)) (k : String) :
    lookupKV (xs ++ ys) k =
      match lookupKV xs k with
      | some v => some v
      | none => lookupKV ys k := by
  induction xs with
  | nil => simp [lookupKV]
  | cons kv rest ih =>
    simp only [List.cons_append, lookupKV]
    by_cases h : kv.1 = k
    · simp [h]
    · simp [h, ih]

theorem hasKey_append (xs ys : List (String × JValue)) (k : String) :
    hasKey (xs ++ ys) k = (hasKey xs k || hasKey ys k) := by
  simp [hasKey, List.any_append]

theorem lookupKV_of_mem_nodup (kvs : List (String × JValue))
    (hnd : (kvs.map Prod.fst).Nodup) (kv : String × JValue) (hm : kv ∈ kvs) :
    lookupKV kvs kv.1 = some kv.2 := by
  induction kvs with
  | nil => cases hm
  | cons hd rest ih =>
    simp only [List.map_cons, List.nodup_cons] at hnd
    rcases List.mem_cons.mp hm with hm' | hm'
    · simp [lookupKV, hm']
    · have hne : hd.1 ≠ kv.1 := by
        intro he
        exact hnd.1 (he ▸ List.mem_map_of_mem Prod.fst hm')
      simp [lookupKV, hne, ih hnd.2 hm']

theorem mem_insertSorted (x y : String) (l : List String) :
    y ∈ insertSorted x l ↔ y = x ∨ y ∈ l := by
  induction l with
  | nil => simp [insertSorted]
  | cons z zs ih =>
    simp only [insertSorted]
    split
    · simp [or_comm, or_assoc, or_left_comm]
    · simp only [List.mem_cons, ih]
      tauto

theorem mem_sortStrs (y : String) (l : List String) :
    y ∈ sortStrs l ↔ y ∈ l := by
  induction l with
  | nil => simp [sortStrs]
  | cons x xs ih =>
    simp only [sortStrs, mem_insertSorted, ih, List.mem_cons]

theorem getTruthyKeys_eq_of_nodup (kvs : List (String × JValue))
    (hnd : (kvs.map Prod.fst).Nodup) :
    getTruthyKeys kvs =
      (kvs.filter (fun kv => !(strStarts kv.1 "__exp"))).map
        (fun kv => if truthyV kv.2 then kv.1 else "~~" ++ kv.1 ++ "~~") := by
  induction kvs with
  | nil => rfl
  | cons kv rest ih =>
    simp only [List.map_cons, List.nodup_cons] at hnd
    have htail :
        ((rest.map Prod.fst).filter (fun k => !(strStarts k "__exp"))).map
          (fun k => if truthyO (lookupKV (kv :: rest) k) then k
                    else "~~" ++ k ++ "~~") = getTruthyKeys rest := by
      apply List.map_congr_left
      intro k hk
      have hkmem : k ∈ rest.map Prod.fst := (List.mem_filter.mp hk).1
      have hne : ¬ kv.1 = k := fun he => hnd.1 (he ▸ hkmem)
      simp [lookupKV, hne]
    by_cases hexp : strStarts kv.1 "__exp"
    · have hl : getTruthyKeys (kv :: rest) =
          ((rest.map Prod.fst).filter (fun k => !(strStarts k "__exp"))).map
            (fun k => if truthyO (lookupKV (kv :: rest) k) then k
                      else "~~" ++ k ++ "~~") := by
        simp [getTruthyKeys, List.filter_cons, hexp]
      rw [hl, htail, ih hnd.2, List.filter_cons]
      simp [hexp]
    · have hl : getTruthyKeys (kv :: rest) =
          (if truthyV kv.2 then kv.1 else "~~" ++ kv.1 ++ "~~") ::
            ((rest.map Prod.fst).filter (fun k => !(strStarts k "__exp"))).map
              (fun k => if truthyO (lookupKV (kv :: rest) k) then k
                        else "~~" ++ k ++ "~~") := by
        simp [getTruthyKeys, List.filter_cons, hexp, lookupKV, truthyO]
      rw [hl, htail, ih hnd.2, List.filter_cons]
      simp [hexp]

/-- Claim C6: the truthy-key list excludes every key whose name starts with
`__exp` regardless of its value, maps each remaining truthy-valued key to
itself and each falsy-valued key to its strikeout form, preserving the
object's enumeration (insertion) order; consequently no `__exp`-prefixed key
ever appears as an entry of a rendered Supports/Attributes list. -/
theorem claim_C6_truthy_keys (kvs : List (String × JValue))
    (hnd : (kvs.map Prod.fst).Nodup) :
    getTruthyKeys kvs =
      (kvs.filter (fun kv => !(strStarts kv.1 "__exp"))).map
        (fun kv => if truthyV kv.2 then kv.1 else "~~" ++ kv.1 ++ "~~") ∧
    (getTruthyKeys kvs).all (fun e => !(strStarts e "__exp")) = true := by
  refine ⟨getTruthyKeys_eq_of_nodup kvs hnd, ?_⟩
  rw [List.all_eq_true]
  intro e he
  rw [getTruthyKeys_eq_of_nodup kvs hnd] at he
  obtain ⟨kv, hkv, rfl⟩ := List.mem_map.mp he
  have hP := (List.mem_filter.mp hkv).2
  split
  · exact hP
  · simp only [strStarts]
    have hdata : ("~~" ++ kv.1 ++ "~~").data = '~' :: '~' :: (kv.1.data ++ ['~', '~']) := by
      rw [String.data_append, String.data_append]
      rfl
    rw [hdata]
    rfl

theorem claim_C6_truthy_keys_witness :
    ((([("align", JBool true), ("__expFoo", JBool true), ("x", JBool false)].map
        Prod.fst).Nodup) ∧
      getTruthyKeys [("align", JBool true), ("__expFoo", JBool true), ("x", JBool false)]
        = ["align", "~~x~~"]) :=
  ⟨by decide, by
    rw [(claim_C6_truthy_keys
      [("align", JBool true), ("__expFoo", JBool true), ("x", JBool false)]
      (by decide)).1]
    decide⟩

/-- Claim C7: `readBlockJSON` returns the empty fragment exactly when the
descriptor object has no `name` field; a descriptor with a `name` always
yields a nonempty fragment, so the missing-`name` skip is the only condition
under which a parseable descriptor contributes nothing. -/
theorem claim_C7_skip_iff_no_name (kvs : List (String × JValue)) :
    readBlockJSON (JObj kvs) = "" ↔ lookupKV kvs "name" = none := by
  constructor
  · intro h
    rcases hlk : lookupKV kvs "name" with _ | nv
    · rfl
    · exfalso
      simp only [readBlockJSON, getField, hlk] at h
      have hlen := congrArg String.length h
      rw [String.length_append] at hlen
      have h1 : ("\n" : String).length = 1 := rfl
      have h0 : ("" : String).length = 0 := rfl
      rw [h1, h0] at hlen
      omega
  · intro h
    simp [readBlockJSON, getField, h]

/-- The descriptor exhibiting the unsorted comma rendering for claim C1. -/
def c1Descriptor : JValue :=
  JObj [("name", JStr "core/x"), ("title", JStr "X"),
        ("attributes", JObj [("b", JBool true), ("a", JBool true)])]

/-- A descriptor whose computed Supports and Attributes truthy-key lists are
both empty, for the blank half of claim C1. -/
def c1EmptyListDescriptor : JValue :=
  JObj [("name", JStr "n"), ("title", JStr "T"),
        ("supports", JObj []), ("attributes", JObj [])]

/-- Claim C1 (code bug): in the bullet template the interpolation
`${ list || list.sort().join(", ") }` short-circuits on the left operand,
because a JS array (even an empty one) is always truthy; the sorted
comma-space join is dead code and a non-empty truthy-key list renders in
object enumeration order joined by a bare comma.  At the failing input with
attribute keys `b` then `a`, the Attributes bullet renders `b,a`, not the
claimed ascending `a, b`; the empty-list half of the claim (blank bullet)
does hold.  The unreachable `.sort().join(", ")` branch in the very same
expression shows the sorted rendering was the intended behavior. -/
theorem claim_C1_sorted_join_bug :
    readBlockJSON c1Descriptor =
      "\n## X - core/x\n\n\n\n-\t**Name:** core/x\n-\t**Category:** \n-   **Ancestor:** \n-   **Parent:** \n-\t**Supports:** \n-\t**Attributes:** b,a\n" ∧
    readBlockJSON c1Descriptor ≠
      "\n## X - core/x\n\n\n\n-\t**Name:** core/x\n-\t**Category:** \n-   **Ancestor:** \n-   **Parent:** \n-\t**Supports:** \n-\t**Attributes:** a, b\n" ∧
    sortStrs ["b", "a"] = ["a", "b"] ∧
    jsArrayTruthy [] = true ∧
    readBlockJSON c1EmptyListDescriptor =
      "\n## T - n\n\n\n\n-\t**Name:** n\n-\t**Category:** \n-   **Ancestor:** \n-   **Parent:** \n-\t**Supports:** \n-\t**Attributes:** \n" :=
  ⟨by decide, by decide, by decide, rfl, by decide⟩

/-- The title-less descriptor used as the counterexample of claim C4. -/
def c4Descriptor : JValue := JObj [("name", JStr "core/x")]

/-- Claim C4 counterexample: a descriptor with a `name` but no `title`
renders the level-2 heading with the literal placeholder text `undefined`,
not with an empty title as the claim states. -/
theorem claim_C4_counterexample :
    readBlockJSON c4Descriptor =
      "\n## undefined - core/x\n\n\n\n-\t**Name:** core/x\n-\t**Category:** \n-   **Ancestor:** \n-   **Parent:** \n-\t**Supports:** \n-\t**Attributes:** \n" ∧
    readBlockJSON c4Descriptor ≠
      "\n##  - core/x\n\n\n\n-\t**Name:** core/x\n-\t**Category:** \n-   **Ancestor:** \n-   **Parent:** \n-\t**Supports:** \n-\t**Attributes:** \n" :=
  ⟨by decide, by decide⟩

/-- The `supportsList` local of `readBlockJSON`, as a function of the
descriptor value. -/
def supportsListOf (blockjson : JValue) : List String :=
  match getField blockjson "supports" with
  | none => []
  | some sup =>
    let aug := augmentSupports sup
    if truthyV aug then processObjWithInnerKeys (objKvs aug) else []

/-- The `attributes` local of `readBlockJSON`, as a function of the
descriptor value. -/
def attributesOf (blockjson : JValue) : List String :=
  match getField blockjson "attributes" with
  | none => []
  | some a => getTruthyKeys (objKvs a)

/-- Claim C4 as amended: for any descriptor with a `name`, whatever other
fields are present or absent, the rendered fragment is the bullet template
instantiated with the per-field slot values, and each optional field
behaves as follows at its own slot, independently of the others: an absent
`description`, `category`, `ancestor` or `parent` renders as the empty
string (each goes through `|| ""`), while an absent `title`, interpolated
directly, renders as the literal string `undefined` in the heading. -/
theorem claim_C4_amended (kvs : List (String × JValue)) (nv : JValue)
    (hname : lookupKV kvs "name" = some nv) :
    (readBlockJSON (JObj kvs) =
      "\n## " ++ jsToStringU (lookupKV kvs "title") ++ " - "
        ++ jsToString nv ++ "\n\n"
        ++ orEmpty (lookupKV kvs "description") ++ "\n\n-\t**Name:** "
        ++ jsToString nv
        ++ "\n-\t**Category:** " ++ orEmpty (lookupKV kvs "category")
        ++ "\n-   **Ancestor:** " ++ orEmpty (lookupKV kvs "ancestor")
        ++ "\n-   **Parent:** " ++ orEmpty (lookupKV kvs "parent")
        ++ "\n-\t**Supports:** " ++ arrLine (supportsListOf (JObj kvs))
        ++ "\n-\t**Attributes:** " ++ arrLine (attributesOf (JObj kvs))
        ++ "\n") ∧
    (lookupKV kvs "title" = none →
      jsToStringU (lookupKV kvs "title") = "undefined") ∧
    (lookupKV kvs "description" = none →
      orEmpty (lookupKV kvs "description") = "") ∧
    (lookupKV kvs "category" = none →
      orEmpty (lookupKV kvs "category") = "") ∧
    (lookupKV kvs "ancestor" = none →
      orEmpty (lookupKV kvs "ancestor") = "") ∧
    (lookupKV kvs "parent" = none →
      orEmpty (lookupKV kvs "parent") = "") := by
  refine ⟨?_, ?_, ?_, ?_, ?_, ?_⟩
  · simp only [readBlockJSON, getField, hname, supportsListOf, attributesOf]
  · intro h; rw [h]; rfl
  · intro h; rw [h]; rfl
  · intro h; rw [h]; rfl
  · intro h; rw [h]; rfl
  · intro h; rw [h]; rfl

/-- A mixed-presence descriptor key list for the claim C4 witness: `title`
and `category` are present, `description`, `ancestor` and `parent` absent. -/
def c4MixedKvs : List (String × JValue) :=
  [("name", JStr "x/y"), ("title", JStr "T"), ("category", JStr "widgets")]

theorem claim_C4_amended_witness :
    lookupKV c4MixedKvs "name" = some (JStr "x/y") ∧
    ((readBlockJSON (JObj c4MixedKvs) =
      "\n## " ++ jsToStringU (lookupKV c4MixedKvs "title") ++ " - "
        ++ jsToString (JStr "x/y") ++ "\n\n"
        ++ orEmpty (lookupKV c4MixedKvs "description") ++ "\n\n-\t**Name:** "
        ++ jsToString (JStr "x/y")
        ++ "\n-\t**Category:** " ++ orEmpty (lookupKV c4MixedKvs "category")
        ++ "\n-   **Ancestor:** " ++ orEmpty (lookupKV c4MixedKvs "ancestor")
        ++ "\n-   **Parent:** " ++ orEmpty (lookupKV c4MixedKvs "parent")
        ++ "\n-\t**Supports:** " ++ arrLine (supportsListOf (JObj c4MixedKvs))
        ++ "\n-\t**Attributes:** " ++ arrLine (attributesOf (JObj c4MixedKvs))
        ++ "\n") ∧
     (lookupKV c4MixedKvs "title" = none →
       jsToStringU (lookupKV c4MixedKvs "title") = "undefined") ∧
     (lookupKV c4MixedKvs "description" = none →
       orEmpty (lookupKV c4MixedKvs "description") = "") ∧
     (lookupKV c4MixedKvs "category" = none →
       orEmpty (lookupKV c4MixedKvs "category") = "") ∧
     (lookupKV c4MixedKvs "ancestor" = none →
       orEmpty (lookupKV c4MixedKvs "ancestor") = "") ∧
     (lookupKV c4MixedKvs "parent" = none →
       orEmpty (lookupKV c4MixedKvs "parent") = "")) ∧
    readBlockJSON (JObj c4MixedKvs) =
      "\n## T - x/y\n\n\n\n-\t**Name:** x/y\n-\t**Category:** widgets\n-   **Ancestor:** \n-   **Parent:** \n-\t**Supports:** \n-\t**Attributes:** \n" :=
  ⟨rfl, claim_C4_amended c4MixedKvs (JStr "x/y") rfl, by decide⟩

theorem map_replace_fst (kvs : List (String × JValue)) (W : JValue) :
    (kvs.map (fun kv => if kv.1 = "color" then (kv.1, W) else kv)).map Prod.fst
      = kvs.map Prod.fst := by
  rw [List.map_map]
  apply List.map_congr_left
  intro kv _
  by_cases h : kv.1 = "color" <;> simp [h, Function.comp]

theorem lookupKV_map_replace (kvs : List (String × JValue)) (W : JValue) :
    lookupKV (kvs.map (fun kv => if kv.1 = "color" then (kv.1, W) else kv)) "color"
      = if hasKey kvs "color" then some W else none := by
  induction kvs with
  | nil => rfl
  | cons kv rest ih =>
    by_cases h : kv.1 = "color"
    · simp [lookupKV, hasKey, h]
    · have hmap : (kv :: rest).map
          (fun kv => if kv.1 = "color" then (kv.1, W) else kv)
          = kv :: rest.map (fun kv => if kv.1 = "color" then (kv.1, W) else kv) := by
        simp [h]
      rw [hmap]
      simp only [lookupKV]
      rw [if_neg h, ih]
      cases hkd : decide (kv.1 = "color")
      · simp only [hasKey, List.any_cons]
        have hcond : (decide (kv.1 = "color") || rest.any fun kv => decide (kv.1 = "color"))
            = (rest.any fun kv => decide (kv.1 = "color")) := by
          rw [hkd]
          rfl
        simp only [hcond]
      · exact absurd (of_decide_eq_true hkd) h

theorem lookupKV_eq_none_of_hasKey_false (kvs : List (String × JValue))
    (k : String) (h : hasKey kvs k = false) : lookupKV kvs k = none := by
  rcases hlk : lookupKV kvs k with _ | v
  · rfl
  · have hs := lookupKV_isSome_iff_hasKey kvs k
    rw [hlk, h] at hs
    simp at hs

theorem exists_lookupKV_of_hasKey (kvs : List (String × JValue)) (k : String)
    (h : hasKey kvs k = true) : ∃ v, lookupKV kvs k = some v := by
  have hs := lookupKV_isSome_iff_hasKey kvs k
  rw [h] at hs
  exact Option.isSome_iff_exists.mp hs

theorem augmentColor_form_ff (ckvs : List (String × JValue))
    (hb : hasKey ckvs "background" = false) (ht : hasKey ckvs "text" = false) :
    augmentColor ckvs =
      (ckvs ++ [("background", JBool true)]) ++ [("text", JBool true)] := by
  have hbt : hasKey [(("background" : String), JBool true)] "text" = false := by
    decide
  simp [augmentColor, hb, ht, hasKey_append, hbt]

theorem augmentColor_form_ft (ckvs : List (String × JValue))
    (hb : hasKey ckvs "background" = false) (ht : hasKey ckvs "text" = true) :
    augmentColor ckvs = ckvs ++ [("background", JBool true)] := by
  simp [augmentColor, hb, ht, hasKey_append]

theorem augmentColor_form_tf (ckvs : List (String × JValue))
    (hb : hasKey ckvs "background" = true) (ht : hasKey ckvs "text" = false) :
    augmentColor ckvs = ckvs ++ [("text", JBool true)] := by
  simp [augmentColor, hb, ht]

theorem augmentColor_form_tt (ckvs : List (String × JValue))
    (hb : hasKey ckvs "background" = true) (ht : hasKey ckvs "text" = true) :
    augmentColor ckvs = ckvs := by
  simp [augmentColor, hb, ht]

/-- Claim C5: when `supports.color` is an object, `augmentSupports` rewrites
only the `color` entry (all supports keys and all other values are kept),
replacing the color object by the augmented one in which `background = true`
is appended exactly when `background` was absent and, independently,
`text = true` exactly when `text` was absent, while keys already present
under `color` keep their values; and when both keys were absent, the
rendered Supports list carries a `color (...)` entry whose sorted inner
truthy keys include both `background` and `text`. -/
theorem claim_C5_augment_color (kvs ckvs : List (String × JValue))
    (hnd : (kvs.map Prod.fst).Nodup)
    (hc : lookupKV kvs "color" = some (JObj ckvs)) :
    augmentSupports (JObj kvs) =
      JObj (kvs.map (fun kv =>
        if kv.1 = "color" then (kv.1, JObj (augmentColor ckvs)) else kv)) ∧
    (kvs.map (fun kv =>
        if kv.1 = "color" then (kv.1, JObj (augmentColor ckvs)) else kv)).map
          Prod.fst = kvs.map Prod.fst ∧
    lookupKV (augmentColor ckvs) "background" =
      (if hasKey ckvs "background" then lookupKV ckvs "background"
       else some (JBool true)) ∧
    lookupKV (augmentColor ckvs) "text" =
      (if hasKey ckvs "text" then lookupKV ckvs "text" else some (JBool true)) ∧
    (augmentColor ckvs).map Prod.fst =
      ckvs.map Prod.fst
        ++ (if hasKey ckvs "background" then [] else ["background"])
        ++ (if hasKey ckvs "text" then [] else ["text"]) ∧
    (hasKey ckvs "background" = false → hasKey ckvs "text" = false →
      "background" ∈ sortStrs (getTruthyKeys (augmentColor ckvs)) ∧
      "text" ∈ sortStrs (getTruthyKeys (augmentColor ckvs)) ∧
      innerEntry "color" (sortStrs (getTruthyKeys (augmentColor ckvs)))
        ∈ processObjWithInnerKeys (objKvs (augmentSupports (JObj kvs)))) := by
  have hhk : hasKey kvs "color" = true := by
    rw [← lookupKV_isSome_iff_hasKey, hc]
    rfl
  have hA : augmentSupports (JObj kvs) =
      JObj (kvs.map (fun kv =>
        if kv.1 = "color" then (kv.1, JObj (augmentColor ckvs)) else kv)) := by
    simp only [augmentSupports, hhk, if_true]
    congr 1
    apply List.map_congr_left
    intro kv hkv
    by_cases hk : kv.1 = "color"
    · have hlk : lookupKV kvs kv.1 = some kv.2 :=
        lookupKV_of_mem_nodup kvs hnd kv hkv
      rw [hk, hc] at hlk
      have hv : JObj ckvs = kv.2 := Option.some.inj hlk
      simp [hk, ← hv]
    · simp [hk]
  have hBG : lookupKV (augmentColor ckvs) "background" =
      (if hasKey ckvs "background" then lookupKV ckvs "background"
       else some (JBool true)) := by
    cases hbv : hasKey ckvs "background" <;> cases htv : hasKey ckvs "text"
    · rw [augmentColor_form_ff ckvs hbv htv, lookupKV_append, lookupKV_append,
        lookupKV_eq_none_of_hasKey_false ckvs _ hbv]
      simp [lookupKV]
    · rw [augmentColor_form_ft ckvs hbv htv, lookupKV_append,
        lookupKV_eq_none_of_hasKey_false ckvs _ hbv]
      simp [lookupKV]
    · obtain ⟨v, hv⟩ := exists_lookupKV_of_hasKey ckvs _ hbv
      rw [augmentColor_form_tf ckvs hbv htv, lookupKV_append, hv]
      simp [hbv, hv]
    · rw [augmentColor_form_tt ckvs hbv htv]
      simp [hbv]
  have hTX : lookupKV (augmentColor ckvs) "text" =
      (if hasKey ckvs "text" then lookupKV ckvs "text" else some (JBool true)) := by
    cases hbv : hasKey ckvs "background" <;> cases htv : hasKey ckvs "text"
    · rw [augmentColor_form_ff ckvs hbv htv, lookupKV_append, lookupKV_append,
        lookupKV_eq_none_of_hasKey_false ckvs _ htv]
      simp [lookupKV]
    · obtain ⟨v, hv⟩ := exists_lookupKV_of_hasKey ckvs _ htv
      rw [augmentColor_form_ft ckvs hbv htv, lookupKV_append, hv]
      simp [htv, hv]
    · rw [augmentColor_form_tf ckvs hbv htv, lookupKV_append,
        lookupKV_eq_none_of_hasKey_false ckvs _ htv]
      simp [lookupKV]
    · rw [augmentColor_form_tt ckvs hbv htv]
      simp [htv]
  have hKeys : (augmentColor ckvs).map Prod.fst =
      ckvs.map Prod.fst
        ++ (if hasKey ckvs "background" then [] else ["background"])
        ++ (if hasKey ckvs "text" then [] else ["text"]) := by
    cases hbv : hasKey ckvs "background" <;> cases htv : hasKey ckvs "text"
    · rw [augmentColor_form_ff ckvs hbv htv]
      simp
    · rw [augmentColor_form_ft ckvs hbv htv]
      simp
    · rw [augmentColor_form_tf ckvs hbv htv]
      simp
    · rw [augmentColor_form_tt ckvs hbv htv]
      simp
  refine ⟨hA, map_replace_fst kvs (JObj (augmentColor ckvs)), hBG, hTX, hKeys, ?_⟩
  intro hb0 ht0
  have hlookBG : lookupKV (augmentColor ckvs) "background" = some (JBool true) := by
    rw [hBG, hb0]
    simp
  have hlookTX : lookupKV (augmentColor ckvs) "text" = some (JBool true) := by
    rw [hTX, ht0]
    simp
  have hmemBGkey : "background" ∈ (augmentColor ckvs).map Prod.fst := by
    rw [augmentColor_form_ff ckvs hb0 ht0]
    simp
  have hmemTXkey : "text" ∈ (augmentColor ckvs).map Prod.fst := by
    rw [augmentColor_form_ff ckvs hb0 ht0]
    simp
  refine ⟨?_, ?_, ?_⟩
  · rw [mem_sortStrs]
    apply List.mem_map.mpr
    refine ⟨"background", List.mem_filter.mpr ⟨hmemBGkey, by decide⟩, ?_⟩
    simp [hlookBG, truthyO, truthyV]
  · rw [mem_sortStrs]
    apply List.mem_map.mpr
    refine ⟨"text", List.mem_filter.mpr ⟨hmemTXkey, by decide⟩, ?_⟩
    simp [hlookTX, truthyO, truthyV]
  · rw [hA]
    have hlookC : lookupKV (kvs.map (fun kv =>
        if kv.1 = "color" then (kv.1, JObj (augmentColor ckvs)) else kv)) "color"
        = some (JObj (augmentColor ckvs)) := by
      rw [lookupKV_map_replace]
      simp [hhk]
    have hmemCkey : "color" ∈ (kvs.map (fun kv =>
        if kv.1 = "color" then (kv.1, JObj (augmentColor ckvs)) else kv)).map
          Prod.fst := by
      rw [map_replace_fst]
      obtain ⟨kv, hkv, he⟩ := List.any_eq_true.mp hhk
      have he' : kv.1 = "color" := by simpa using he
      exact he' ▸ List.mem_map_of_mem Prod.fst hkv
    have hmemC : "color" ∈ getTruthyKeys (kvs.map (fun kv =>
        if kv.1 = "color" then (kv.1, JObj (augmentColor ckvs)) else kv)) := by
      apply List.mem_map.mpr
      refine ⟨"color", List.mem_filter.mpr ⟨hmemCkey, by decide⟩, ?_⟩
      simp [hlookC, truthyO, truthyV]
    simp only [objKvs, processObjWithInnerKeys]
    apply List.mem_map.mpr
    exact ⟨"color", hmemC, by simp [hlookC]⟩

theorem claim_C5_augment_color_witness :
    (([(("color" : String), JObj [("link", JBool true)])].map Prod.fst).Nodup ∧
     lookupKV [("color", JObj [("link", JBool true)])] "color"
       = some (JObj [("link", JBool true)]) ∧
     "background" ∈ sortStrs (getTruthyKeys (augmentColor [("link", JBool true)])) ∧
     "text" ∈ sortStrs (getTruthyKeys (augmentColor [("link", JBool true)])) ∧
     innerEntry "color" (sortStrs (getTruthyKeys (augmentColor [("link", JBool true)])))
       ∈ processObjWithInnerKeys (objKvs (augmentSupports
           (JObj [("color", JObj [("link", JBool true)])])))) := by
  have h := (claim_C5_augment_color [("color", JObj [("link", JBool true)])]
      [("link", JBool true)] (by decide) rfl).2.2.2.2.2 (by decide) (by decide)
  exact ⟨by decide, rfl, h.1, h.2.1, h.2.2⟩

/-!
Structure lemmas for GetSubstitution, used for the idempotence claim.
-/

/-- No dollar character occurs in the list. -/
def noDollar (l : List Char) : Bool := l.all (fun c => c != dollarC)

/-- The head (if any) can not complete a dollar directive. -/
def headSafe : List Char → Bool
  | [] => true
  | c :: _ => c != dollarC && c != ampC && c != bqC && c != sqC

theorem getSub_of_noDollar (m b a : List Char) :
    ∀ n l, l.length ≤ n → noDollar l = true → getSubstitution m b a l = l := by
  intro n
  induction n with
  | zero =>
    intro l hl _
    have : l = [] := List.eq_nil_of_length_eq_zero (Nat.le_zero.mp hl)
    rw [this]
    rfl
  | succ n ih =>
    intro l hl hnd
    match l with
    | [] => rfl
    | [c] => rfl
    | c :: d :: rest =>
      simp only [noDollar, List.all_cons, Bool.and_eq_true] at hnd
      have hc : ¬ c = dollarC := by simpa using hnd.1
      simp only [getSubstitution, if_neg hc]
      congr 1
      apply ih (d :: rest)
      · simp only [List.length_cons] at hl ⊢
        omega
      · simp [noDollar, List.all_cons, hnd.2.1, hnd.2.2]

theorem getSub_append_left (m b a : List Char) (x : List Char)
    (hx : noDollar x = true) :
    ∀ y, getSubstitution m b a (x ++ y) = x ++ getSubstitution m b a y := by
  induction x with
  | nil => intro y; rfl
  | cons c x' ih =>
    intro y
    simp only [noDollar, List.all_cons, Bool.and_eq_true] at hx
    have hc : ¬ c = dollarC := by simpa using hx.1
    have hx' : noDollar x' = true := hx.2
    rcases hxy : x' ++ y with _ | ⟨d, r⟩
    · obtain ⟨hx0, hy0⟩ := List.append_eq_nil.mp hxy
      subst hx0
      subst hy0
      rfl
    · have hstep : getSubstitution m b a (c :: (x' ++ y))
          = c :: getSubstitution m b a (x' ++ y) := by
        rw [hxy]
        simp only [getSubstitution, if_neg hc]
      rw [List.cons_append, hstep, ih hx' y, List.cons_append]

theorem getSub_append_right (m b a z : List Char)
    (hz : noDollar z = true) (hh : headSafe z = true) :
    ∀ n y, y.length ≤ n →
      getSubstitution m b a (y ++ z) = getSubstitution m b a y ++ z := by
  intro n
  induction n with
  | zero =>
    intro y hy
    have : y = [] := List.eq_nil_of_length_eq_zero (Nat.le_zero.mp hy)
    subst this
    rw [List.nil_append, getSub_of_noDollar m b a z.length z le_rfl hz]
    rfl
  | succ n ih =>
    intro y hy
    match y with
    | [] =>
      rw [List.nil_append, getSub_of_noDollar m b a z.length z le_rfl hz]
      rfl
    | [c] =>
      rcases hzc : z with _ | ⟨d, zr⟩
      · simp [getSubstitution]
      · have hdOk : d != dollarC && d != ampC && d != bqC && d != sqC := by
          rw [hzc] at hh
          exact hh
        simp only [Bool.and_eq_true, bne_iff_ne, ne_eq] at hdOk
        obtain ⟨⟨⟨hd1, hd2⟩, hd3⟩, hd4⟩ := hdOk
        have hz' : getSubstitution m b a z = z :=
          getSub_of_noDollar m b a z.length z le_rfl hz
        rw [hzc] at hz'
        by_cases hc : c = dollarC
        · have : getSubstitution m b a ([c] ++ (d :: zr))
              = c :: getSubstitution m b a (d :: zr) := by
            simp only [List.singleton_append, getSubstitution, if_pos hc,
              if_neg hd1, if_neg hd2, if_neg hd3, if_neg hd4]
          rw [this, hz']
          rfl
        · have : getSubstitution m b a ([c] ++ (d :: zr))
              = c :: getSubstitution m b a (d :: zr) := by
            simp only [List.singleton_append, getSubstitution, if_neg hc]
          rw [this, hz']
          rfl
    | c :: d :: rest =>
      have hlen2 : rest.length ≤ n := by
        simp only [List.length_cons] at hy
        omega
      have hlen1 : (d :: rest).length ≤ n := by
        simp only [List.length_cons] at hy ⊢
        omega
      by_cases hc : c = dollarC
      · by_cases hd1 : d = dollarC
        · have hl : getSubstitution m b a ((c :: d :: rest) ++ z)
              = dollarC :: getSubstitution m b a (rest ++ z) := by
            simp only [List.cons_append, getSubstitution, if_pos hc, if_pos hd1, List.append_eq]
          have hr : getSubstitution m b a (c :: d :: rest)
              = dollarC :: getSubstitution m b a rest := by
            simp only [getSubstitution, if_pos hc, if_pos hd1]
          rw [hl, hr, ih rest hlen2]
          rfl
        · by_cases hd2 : d = ampC
          · have hl : getSubstitution m b a ((c :: d :: rest) ++ z)
                = m ++ getSubstitution m b a (rest ++ z) := by
              simp only [List.cons_append, getSubstitution, if_pos hc,
                if_neg hd1, if_pos hd2, List.append_eq]
            have hr : getSubstitution m b a (c :: d :: rest)
                = m ++ getSubstitution m b a rest := by
              simp only [getSubstitution, if_pos hc, if_neg hd1, if_pos hd2]
            rw [hl, hr, ih rest hlen2, List.append_assoc]
          · by_cases hd3 : d = bqC
            · have hl : getSubstitution m b a ((c :: d :: rest) ++ z)
                  = b ++ getSubstitution m b a (rest ++ z) := by
                simp only [List.cons_append, getSubstitution, if_pos hc,
                  if_neg hd1, if_neg hd2, if_pos hd3, List.append_eq]
              have hr : getSubstitution m b a (c :: d :: rest)
                  = b ++ getSubstitution m b a rest := by
                simp only [getSubstitution, if_pos hc, if_neg hd1, if_neg hd2,
                  if_pos hd3]
              rw [hl, hr, ih rest hlen2, List.append_assoc]
            · by_cases hd4 : d = sqC
              · have hl : getSubstitution m b a ((c :: d :: rest) ++ z)
                    = a ++ getSubstitution m b a (rest ++ z) := by
                  simp only [List.cons_append, getSubstitution, if_pos hc,
                    if_neg hd1, if_neg hd2, if_neg hd3, if_pos hd4, List.append_eq]
                have hr : getSubstitution m b a (c :: d :: rest)
                    = a ++ getSubstitution m b a rest := by
                  simp only [getSubstitution, if_pos hc, if_neg hd1,
                    if_neg hd2, if_neg hd3, if_pos hd4]
                rw [hl, hr, ih rest hlen2, List.append_assoc]
              · have hl : getSubstitution m b a ((c :: d :: rest) ++ z)
                    = c :: getSubstitution m b a ((d :: rest) ++ z) := by
                  simp only [List.cons_append, getSubstitution, if_pos hc,
                    if_neg hd1, if_neg hd2, if_neg hd3, if_neg hd4, List.append_eq]
                have hr : getSubstitution m b a (c :: d :: rest)
                    = c :: getSubstitution m b a (d :: rest) := by
                  simp only [getSubstitution, if_pos hc, if_neg hd1,
                    if_neg hd2, if_neg hd3, if_neg hd4]
                rw [hl, hr, ih (d :: rest) hlen1]
                rfl
      · have hl : getSubstitution m b a ((c :: d :: rest) ++ z)
            = c :: getSubstitution m b a ((d :: rest) ++ z) := by
          simp only [List.cons_append, getSubstitution, if_neg hc, List.append_eq]
        have hr : getSubstitution m b a (c :: d :: rest)
            = c :: getSubstitution m b a (d :: rest) := by
          simp only [getSubstitution, if_neg hc]
        rw [hl, hr, ih (d :: rest) hlen1]
        rfl

theorem getSub_indep (b a : List Char) :
    ∀ n t, t.length ≤ n → usesMatch t = false →
      ∀ m m', getSubstitution m b a t = getSubstitution m' b a t := by
  intro n
  induction n with
  | zero =>
    intro t ht _ m m'
    have : t = [] := List.eq_nil_of_length_eq_zero (Nat.le_zero.mp ht)
    subst this
    rfl
  | succ n ih =>
    intro t ht hu m m'
    match t with
    | [] => rfl
    | [c] => rfl
    | c :: d :: rest =>
      have hlen2 : rest.length ≤ n := by
        simp only [List.length_cons] at ht
        omega
      have hlen1 : (d :: rest).length ≤ n := by
        simp only [List.length_cons] at ht ⊢
        omega
      by_cases hc : c = dollarC
      · by_cases hd1 : d = dollarC
        · have hu' : usesMatch rest = false := by
            simpa only [usesMatch, if_pos hc, if_pos hd1] using hu
          simp only [getSubstitution, if_pos hc, if_pos hd1]
          rw [ih rest hlen2 hu' m m']
        · by_cases hd2 : d = ampC
          · exfalso
            have : usesMatch (c :: d :: rest) = true := by
              simp only [usesMatch, if_pos hc, if_neg hd1, if_pos hd2]
            rw [hu] at this
            exact Bool.false_ne_true this
          · by_cases hd3 : d = bqC
            · have hu' : usesMatch rest = false := by
                simpa only [usesMatch, if_pos hc, if_neg hd1, if_neg hd2,
                  if_pos hd3] using hu
              simp only [getSubstitution, if_pos hc, if_neg hd1, if_neg hd2,
                if_pos hd3]
              rw [ih rest hlen2 hu' m m']
            · by_cases hd4 : d = sqC
              · have hu' : usesMatch rest = false := by
                  simpa only [usesMatch, if_pos hc, if_neg hd1, if_neg hd2,
                    if_neg hd3, if_pos hd4] using hu
                simp only [getSubstitution, if_pos hc, if_neg hd1, if_neg hd2,
                  if_neg hd3, if_pos hd4]
                rw [ih rest hlen2 hu' m m']
              · have hu' : usesMatch (d :: rest) = false := by
                  simpa only [usesMatch, if_pos hc, if_neg hd1, if_neg hd2,
                    if_neg hd3, if_neg hd4] using hu
                simp only [getSubstitution, if_pos hc, if_neg hd1, if_neg hd2,
                  if_neg hd3, if_neg hd4]
                rw [ih (d :: rest) hlen1 hu' m m']
      · have hu' : usesMatch (d :: rest) = false := by
          simpa only [usesMatch, if_neg hc] using hu
        simp only [getSubstitution, if_neg hc]
        rw [ih (d :: rest) hlen1 hu' m m']

/-- Substituting into the script's replacement template touches only the
fragment part: the tokens and the two newlines around it pass through. -/
theorem autogenTemplate_sub (A B : List Char) (frag : String) (m : List Char) :
    getSubstitution m A B (autogenTemplate frag)
      = (START_TOKEN ++ '\n' :: getSubstitution m A B frag.data)
          ++ '\n' :: END_TOKEN := by
  have hr := getSub_append_right m A B ('\n' :: END_TOKEN) (by decide) (by decide)
      (START_TOKEN ++ '\n' :: frag.data).length
      (START_TOKEN ++ '\n' :: frag.data) le_rfl
  have hl := getSub_append_left m A B START_TOKEN (by decide) ('\n' :: frag.data)
  have hl2 : getSubstitution m A B ('\n' :: frag.data)
      = '\n' :: getSubstitution m A B frag.data := by
    have h3 := getSub_append_left m A B ['\n'] (by decide) frag.data
    simpa using h3
  calc getSubstitution m A B (autogenTemplate frag)
      = getSubstitution m A B (START_TOKEN ++ '\n' :: frag.data)
          ++ '\n' :: END_TOKEN := hr
    _ = (START_TOKEN ++ getSubstitution m A B ('\n' :: frag.data))
          ++ '\n' :: END_TOKEN := by rw [hl]
    _ = (START_TOKEN ++ '\n' :: getSubstitution m A B frag.data)
          ++ '\n' :: END_TOKEN := by rw [hl2]

/-- Claim C3 as amended: running the generator twice with identical
descriptor inputs is a fixed point on every document, provided the
concatenated generated fragment contains no dollar-ampersand replacement
directive (the one GetSubstitution pattern whose expansion depends on the
matched span and therefore changes between the two runs). -/
theorem claim_C3_amended_idempotent (descs : List JValue) (doc : List Char)
    (h : usesMatch (autogenOf descs).data = false) :
    generatorRun descs (generatorRun descs doc) = generatorRun descs doc := by
  rcases hf : findFirstSplit START_TOKEN doc with _ | ⟨A, rest⟩
  · have h1 : generatorRun descs doc = doc := by
      simp [generatorRun, spliceDocs, jsReplaceFirst, hf]
    rw [h1]
    exact h1
  · rcases hl : findLastSplit END_TOKEN rest with _ | ⟨M, B⟩
    · have h1 : generatorRun descs doc = doc := by
        simp [generatorRun, spliceDocs, jsReplaceFirst, hf, hl]
      rw [h1]
      exact h1
    · have hdoc : doc = A ++ START_TOKEN ++ rest := ffs_sound _ _ _ _ hf
      have hrest : rest = M ++ END_TOKEN ++ B := fls_sound _ _ _ _ hl
      have hdoc1 : generatorRun descs doc
          = A ++ ((START_TOKEN ++ '\n' ::
              getSubstitution (START_TOKEN ++ M ++ END_TOKEN) A B
                (autogenOf descs).data) ++ '\n' :: END_TOKEN) ++ B := by
        simp only [generatorRun, spliceDocs, jsReplaceFirst, hf, hl]
        rw [autogenTemplate_sub]
      set sfrag := getSubstitution (START_TOKEN ++ M ++ END_TOKEN) A B
        (autogenOf descs).data with hsf
      have hdoc1' : generatorRun descs doc
          = A ++ START_TOKEN ++
              ((('\n' :: (sfrag ++ ['\n'])) ++ END_TOKEN) ++ B) := by
        rw [hdoc1]
        simp [List.append_assoc, List.cons_append]
      have hffs1 : findFirstSplit START_TOKEN (generatorRun descs doc)
          = some (A, (('\n' :: (sfrag ++ ['\n'])) ++ END_TOKEN) ++ B) := by
        obtain ⟨⟨a2, b2⟩, hr2⟩ := ffs_complete START_TOKEN _ A
          ((('\n' :: (sfrag ++ ['\n'])) ++ END_TOKEN) ++ B) hdoc1'
        have hsound2 := ffs_sound _ _ _ _ hr2
        have hle : a2.length ≤ A.length := ffs_min _ _ _ _ hr2 A _ hdoc1'
        have hge : A.length ≤ a2.length := by
          by_contra hlt
          push_neg at hlt
          have hp1 : (a2 ++ START_TOKEN) <+: generatorRun descs doc :=
            ⟨b2, hsound2.symm⟩
          have hp2 : (A ++ START_TOKEN) <+: generatorRun descs doc :=
            ⟨(('\n' :: (sfrag ++ ['\n'])) ++ END_TOKEN) ++ B, hdoc1'.symm⟩
          have hpp : (a2 ++ START_TOKEN) <+: (A ++ START_TOKEN) :=
            List.prefix_of_prefix_length_le hp1 hp2
              (by simp only [List.length_append]; omega)
          have hp3 : (A ++ START_TOKEN) <+: doc := ⟨rest, hdoc.symm⟩
          obtain ⟨tail, htail⟩ := hpp.trans hp3
          have hmin1 := ffs_min START_TOKEN doc A rest hf a2 tail htail.symm
          omega
        have hcomb : a2 ++ (START_TOKEN ++ b2)
            = A ++ (START_TOKEN ++
                ((('\n' :: (sfrag ++ ['\n'])) ++ END_TOKEN) ++ B)) := by
          have hc := hsound2.symm.trans hdoc1'
          simpa [List.append_assoc] using hc
        obtain ⟨ha2, hb2⟩ := List.append_inj hcomb (le_antisymm hle hge)
        have hb2' : b2 = (('\n' :: (sfrag ++ ['\n'])) ++ END_TOKEN) ++ B :=
          List.append_cancel_left hb2
        rw [hr2, ha2, hb2']
      have hfls1 : findLastSplit END_TOKEN
            ((('\n' :: (sfrag ++ ['\n'])) ++ END_TOKEN) ++ B)
          = some ('\n' :: (sfrag ++ ['\n']), B) := by
        obtain ⟨⟨a3, b3⟩, hr3⟩ := fls_complete END_TOKEN
          ((('\n' :: (sfrag ++ ['\n'])) ++ END_TOKEN) ++ B)
          ('\n' :: (sfrag ++ ['\n'])) B rfl
        have hsound3 := fls_sound _ _ _ _ hr3
        have hgeK : ('\n' :: (sfrag ++ ['\n'])).length ≤ a3.length :=
          fls_max _ _ _ _ hr3 _ B rfl
        have hlen3 := congrArg List.length hsound3
        simp only [List.length_append, List.length_cons] at hlen3
        have hleK : a3.length ≤ ('\n' :: (sfrag ++ ['\n'])).length := by
          by_contra hgt
          push_neg at hgt
          have hs1 : (END_TOKEN ++ b3) <:+
              (('\n' :: (sfrag ++ ['\n'])) ++ END_TOKEN) ++ B :=
            ⟨a3, by rw [hsound3]; simp [List.append_assoc]⟩
          have hs2 : (END_TOKEN ++ B) <:+
              (('\n' :: (sfrag ++ ['\n'])) ++ END_TOKEN) ++ B :=
            ⟨'\n' :: (sfrag ++ ['\n']), by simp [List.append_assoc]⟩
          have hss : (END_TOKEN ++ b3) <:+ (END_TOKEN ++ B) :=
            List.suffix_of_suffix_length_le hs1 hs2
              (by simp only [List.length_append, List.length_cons] at hgt ⊢; omega)
          obtain ⟨x, hx⟩ := hss
          have hrest2 : rest = (M ++ x) ++ END_TOKEN ++ b3 := by
            calc rest = M ++ END_TOKEN ++ B := hrest
              _ = M ++ (END_TOKEN ++ B) := by simp [List.append_assoc]
              _ = M ++ (x ++ (END_TOKEN ++ b3)) := by rw [hx]
              _ = (M ++ x) ++ END_TOKEN ++ b3 := by simp [List.append_assoc]
          have hmax1 := fls_max END_TOKEN rest M B hl (M ++ x) b3 hrest2
          have hlx := congrArg List.length hx
          simp only [List.length_append, List.length_cons] at hlx hmax1 hgt
          omega
        have hcombK : a3 ++ (END_TOKEN ++ b3)
            = ('\n' :: (sfrag ++ ['\n'])) ++ (END_TOKEN ++ B) := by
          have hc := hsound3.symm
          calc a3 ++ (END_TOKEN ++ b3)
              = a3 ++ END_TOKEN ++ b3 := by simp [List.append_assoc]
            _ = (('\n' :: (sfrag ++ ['\n'])) ++ END_TOKEN) ++ B := hc
            _ = ('\n' :: (sfrag ++ ['\n'])) ++ (END_TOKEN ++ B) := by
                simp [List.append_assoc]
        obtain ⟨ha3, hb3⟩ := List.append_inj hcombK (le_antisymm hleK hgeK)
        have hb3' : b3 = B := List.append_cancel_left hb3
        rw [hr3, ha3, hb3']
      have hind : getSubstitution
            (START_TOKEN ++ ('\n' :: (sfrag ++ ['\n'])) ++ END_TOKEN) A B
            (autogenOf descs).data
          = sfrag := by
        rw [hsf]
        exact getSub_indep A B (autogenOf descs).data.length
          (autogenOf descs).data le_rfl h _ _
      calc generatorRun descs (generatorRun descs doc)
          = jsReplaceFirst START_TOKEN END_TOKEN
              (autogenTemplate (autogenOf descs)) (generatorRun descs doc) := rfl
        _ = A ++ getSubstitution
              (START_TOKEN ++ ('\n' :: (sfrag ++ ['\n'])) ++ END_TOKEN) A B
              (autogenTemplate (autogenOf descs)) ++ B := by
            simp only [jsReplaceFirst, hffs1, hfls1]
        _ = A ++ ((START_TOKEN ++ '\n' :: getSubstitution
              (START_TOKEN ++ ('\n' :: (sfrag ++ ['\n'])) ++ END_TOKEN) A B
              (autogenOf descs).data) ++ '\n' :: END_TOKEN) ++ B := by
            rw [autogenTemplate_sub]
        _ = A ++ ((START_TOKEN ++ '\n' :: sfrag) ++ '\n' :: END_TOKEN) ++ B := by
            rw [hind]
        _ = generatorRun descs doc := hdoc1.symm

/-- The descriptor whose description field is a dollar-ampersand directive,
refuting unconditional idempotence of the generator. -/
def c3Descriptor : JValue :=
  JObj [("name", JStr "n"), ("title", JStr "T"), ("description", JStr "$&")]

/-- A small marker-delimited target document for the claim C3 runs. -/
def c3Doc : List Char :=
  "A".data ++ START_TOKEN ++ "M".data ++ END_TOKEN ++ "B".data

set_option maxRecDepth 1000000 in
/-- Claim C3 counterexample: with a descriptor whose `description` is the
string dollar-ampersand, the string-replacement substitution re-inserts the
matched span, so the second generator run produces a different document from
the first: the full pipeline is not a fixed point after one run. -/
theorem claim_C3_counterexample :
    generatorRun [c3Descriptor] (generatorRun [c3Descriptor] c3Doc)
      ≠ generatorRun [c3Descriptor] c3Doc := by
  decide

/-- The plain descriptor used to instantiate the amended claim C3. -/
def c3WitnessDescriptor : JValue := JObj [("name", JStr "a/b")]

set_option maxRecDepth 1000000 in
theorem claim_C3_amended_idempotent_witness :
    usesMatch (autogenOf [c3WitnessDescriptor]).data = false ∧
    generatorRun [c3WitnessDescriptor] (generatorRun [c3WitnessDescriptor] c3Doc)
      = generatorRun [c3WitnessDescriptor] c3Doc :=
  ⟨by decide, claim_C3_amended_idempotent [c3WitnessDescriptor] c3Doc (by decide)⟩

/-!
The CFE workflow (`new-cfe-notifications.yml`).  The two `github-script`
steps extract the release number and the PR number from the issue body with
the regexes
`Which release does this request apply to\?.*?\n([0-9]+\.[0-9]+)` and
`Which PR needs to be included\?.*?\n(https:\/\/github\.com\/[a-zA-Z0-9_\-]+\/[a-zA-Z0-9_\-]+\/pull\/([0-9]+))`
(both with the dotall flag), failing the run with a descriptive message when
no match exists; on the approved path the PR gets the label
`cherry pick to trunk` and the issue gets the milestone
`RELEASE_NUMBER.0`.  The lazy any-character prefix together with the literal
newline means the regexes succeed exactly when the question text occurs and
a version number (resp. a GitHub pull URL) begins some later line.
-/

/-- The release question literal from the workflow regex. -/
def releaseQuestion : List Char := "Which release does this request apply to?".data

/-- The PR question literal from the workflow regex. -/
def prQuestion : List Char := "Which PR needs to be included?".data

/-- The literal URL head of the PR regex. -/
def ghUrlStart : List Char := "https://github.com/".data

/-- The literal `/pull/` segment of the PR regex. -/
def pullSegment : List Char := "/pull/".data

/-- The character class `[a-zA-Z0-9_\-]` of the PR regex. -/
def isWordChar (c : Char) : Bool := c.isAlpha || c.isDigit || c = '_' || c = '-'

/-- Match `[0-9]+\.[0-9]+` at the start of `l`, returning the capture. -/
def matchVersionAt (l : List Char) : Option (List Char) :=
  let d1 := l.takeWhile Char.isDigit
  let r1 := l.dropWhile Char.isDigit
  if d1 = [] then none
  else
    match r1 with
    | c :: r2 =>
      if c = '.' then
        let d2 := r2.takeWhile Char.isDigit
        if d2 = [] then none else some (d1 ++ '.' :: d2)
      else none
    | [] => none

/-- Match the pull-request URL of the PR regex at the start of `l`,
returning the inner capture (the PR number). -/
def matchPRAt (l : List Char) : Option (List Char) :=
  if ghUrlStart.isPrefixOf l then
    let l1 := l.drop ghUrlStart.length
    let own := l1.takeWhile isWordChar
    let r1 := l1.dropWhile isWordChar
    if own = [] then none
    else
      match r1 with
      | c :: r2 =>
        if c = '/' then
          let repo := r2.takeWhile isWordChar
          let r3 := r2.dropWhile isWordChar
          if repo = [] then none
          else if pullSegment.isPrefixOf r3 then
            let num := (r3.drop pullSegment.length).takeWhile Char.isDigit
            if num = [] then none else some num
          else none
        else none
      | [] => none
  else none

/-- The lazy `.*?\n` search: try the local matcher right after each newline,
from left to right. -/
def scanAfterNewline (f : List Char → Option (List Char)) :
    List Char → Option (List Char)
  | [] => none
  | c :: rest =>
    if c = '\n' then
      match f rest with
      | some v => some v
      | none => scanAfterNewline f rest
    else scanAfterNewline f rest

/-- The `extract-release` step: leftmost regex match, capture group 1. -/
def extractReleaseNumber (body : List Char) : Option (List Char) :=
  match findFirstSplit releaseQuestion body with
  | none => none
  | some pr => scanAfterNewline matchVersionAt pr.2

/-- The `extract-pr` step: leftmost regex match, capture group 2. -/
def extractPRNumber (body : List Char) : Option (List Char) :=
  match findFirstSplit prQuestion body with
  | none => none
  | some pr => scanAfterNewline matchPRAt pr.2

/-- The denotation of the release regex: the question occurs, and a
MAJOR.MINOR number begins some later line. -/
def ReleasePatternP (body : List Char) : Prop :=
  ∃ a m d1 d2 r, body = a ++ releaseQuestion ++ m ++ '\n' :: (d1 ++ '.' :: (d2 ++ r))
    ∧ d1 ≠ [] ∧ d2 ≠ [] ∧ (∀ c ∈ d1, c.isDigit) ∧ (∀ c ∈ d2, c.isDigit)

/-- The denotation of the PR regex: the question occurs, and a GitHub
pull-request URL begins some later line. -/
def PRPatternP (body : List Char) : Prop :=
  ∃ a m own repo num r,
    body = a ++ prQuestion ++ m
      ++ '\n' :: (ghUrlStart ++ own ++ '/' :: (repo ++ pullSegment ++ num ++ r))
    ∧ own ≠ [] ∧ repo ≠ [] ∧ num ≠ []
    ∧ (∀ c ∈ own, isWordChar c) ∧ (∀ c ∈ repo, isWordChar c)
    ∧ (∀ c ∈ num, c.isDigit)

theorem scanAfterNewline_isSome (f : List Char → Option (List Char)) :
    ∀ rest, (scanAfterNewline f rest).isSome = true
      ↔ ∃ x y, rest = x ++ '\n' :: y ∧ (f y).isSome = true := by
  intro rest
  induction rest with
  | nil =>
    constructor
    · intro h
      simp [scanAfterNewline] at h
    · rintro ⟨x, y, hxy, _⟩
      have := congrArg List.length hxy
      simp only [List.length_nil, List.length_append, List.length_cons] at this
      omega
  | cons c t ih =>
    by_cases hc : c = '\n'
    · subst hc
      rcases hft : f t with _ | v
      · constructor
        · intro h
          have h' : (scanAfterNewline f t).isSome = true := by
            simpa [scanAfterNewline, hft] using h
          obtain ⟨x, y, hxy, hfy⟩ := ih.mp h'
          exact ⟨'\n' :: x, y, by rw [hxy]; rfl, hfy⟩
        · rintro ⟨x, y, hxy, hfy⟩
          rcases x with _ | ⟨x0, x'⟩
          · simp only [List.nil_append, List.cons.injEq] at hxy
            rw [← hxy.2, hft] at hfy
            simp at hfy
          · simp only [List.cons_append, List.cons.injEq] at hxy
            have h' : (scanAfterNewline f t).isSome = true :=
              ih.mpr ⟨x', y, hxy.2, hfy⟩
            simpa [scanAfterNewline, hft] using h'
      · constructor
        · intro _
          exact ⟨[], t, rfl, by rw [hft]; rfl⟩
        · intro _
          simp [scanAfterNewline, hft]
    · constructor
      · intro h
        have h' : (scanAfterNewline f t).isSome = true := by
          simpa [scanAfterNewline, hc] using h
        obtain ⟨x, y, hxy, hfy⟩ := ih.mp h'
        exact ⟨c :: x, y, by rw [hxy]; rfl, hfy⟩
      · rintro ⟨x, y, hxy, hfy⟩
        rcases x with _ | ⟨x0, x'⟩
        · simp only [List.nil_append, List.cons.injEq] at hxy
          exact absurd hxy.1 hc
        · simp only [List.cons_append, List.cons.injEq] at hxy
          have h' : (scanAfterNewline f t).isSome = true :=
            ih.mpr ⟨x', y, hxy.2, hfy⟩
          simpa [scanAfterNewline, hc] using h'

theorem matchVersionAt_isSome (y : List Char) :
    (matchVersionAt y).isSome = true
      ↔ ∃ d1 d2 r, y = d1 ++ '.' :: (d2 ++ r) ∧ d1 ≠ [] ∧ d2 ≠ []
          ∧ (∀ c ∈ d1, c.isDigit) ∧ (∀ c ∈ d2, c.isDigit) := by
  constructor
  · intro h
    simp only [matchVersionAt] at h
    split at h
    · simp at h
    · next h1 =>
      split at h
      · next c0 r2 hr1 =>
        split at h
        · next hc0 =>
          split at h
          · simp at h
          · next h2 =>
            refine ⟨y.takeWhile Char.isDigit, r2.takeWhile Char.isDigit,
              r2.dropWhile Char.isDigit, ?_, h1, h2, ?_, ?_⟩
            · conv_lhs => rw [← List.takeWhile_append_dropWhile Char.isDigit y]
              rw [hr1, hc0, List.takeWhile_append_dropWhile]
            · intro c hcmem
              exact List.mem_takeWhile_imp hcmem
            · intro c hcmem
              exact List.mem_takeWhile_imp hcmem
        · simp at h
      · simp at h
  · rintro ⟨d1, d2, r, hy, h1, h2, hd1, hd2⟩
    subst hy
    have htk : (d1 ++ '.' :: (d2 ++ r)).takeWhile Char.isDigit = d1 := by
      rw [List.takeWhile_append_of_pos hd1]
      have : ('.' :: (d2 ++ r)).takeWhile Char.isDigit = [] := by
        simp [List.takeWhile_cons]
      rw [this, List.append_nil]
    have hdr : (d1 ++ '.' :: (d2 ++ r)).dropWhile Char.isDigit
        = '.' :: (d2 ++ r) := by
      rw [List.dropWhile_append_of_pos hd1]
      simp [List.dropWhile_cons]
    have htk2 : (d2 ++ r).takeWhile Char.isDigit ≠ [] := by
      rcases d2 with _ | ⟨c2, d2'⟩
      · exact absurd rfl h2
      · have hc2 : Char.isDigit c2 = true := hd2 c2 (by simp)
        simp [List.takeWhile_cons, hc2]
    simp only [matchVersionAt, htk, hdr, if_neg h1]
    simp [htk2]

theorem matchPRAt_isSome (l : List Char) :
    (matchPRAt l).isSome = true
      ↔ ∃ own repo num r,
          l = ghUrlStart ++ own ++ '/' :: (repo ++ pullSegment ++ num ++ r)
          ∧ own ≠ [] ∧ repo ≠ [] ∧ num ≠ []
          ∧ (∀ c ∈ own, isWordChar c) ∧ (∀ c ∈ repo, isWordChar c)
          ∧ (∀ c ∈ num, c.isDigit) := by
  constructor
  · intro h
    simp only [matchPRAt] at h
    split at h
    case isTrue hpre =>
      obtain ⟨rest0, hrest0⟩ := List.isPrefixOf_iff_prefix.mp hpre
      have hl1 : l.drop ghUrlStart.length = rest0 := by
        rw [← hrest0, List.drop_left]
      rw [hl1] at h
      split at h
      · simp at h
      case isFalse hown =>
        split at h
        case h_1 c0 r2 hr1 =>
          split at h
          case isTrue hc0 =>
            split at h
            · simp at h
            case isFalse hrepo =>
              split at h
              case isTrue hpull =>
                split at h
                · simp at h
                case isFalse hnum =>
                  obtain ⟨rest4, hrest4⟩ := List.isPrefixOf_iff_prefix.mp hpull
                  have hdrop2 : (r2.dropWhile isWordChar).drop pullSegment.length
                      = rest4 := by
                    rw [← hrest4, List.drop_left]
                  rw [hdrop2] at hnum
                  have hrest0eq : rest0 = rest0.takeWhile isWordChar ++ '/' :: r2 := by
                    conv_lhs =>
                      rw [← List.takeWhile_append_dropWhile isWordChar rest0]
                    rw [hr1, hc0]
                  have hr2eq : r2 = r2.takeWhile isWordChar
                      ++ (pullSegment ++ (rest4.takeWhile Char.isDigit
                            ++ rest4.dropWhile Char.isDigit)) := by
                    conv_lhs =>
                      rw [← List.takeWhile_append_dropWhile isWordChar r2]
                    rw [← hrest4, List.takeWhile_append_dropWhile]
                  refine ⟨rest0.takeWhile isWordChar, r2.takeWhile isWordChar,
                    rest4.takeWhile Char.isDigit, rest4.dropWhile Char.isDigit,
                    ?_, hown, hrepo, hnum, ?_, ?_, ?_⟩
                  · rw [← hrest0]
                    conv_lhs => rw [hrest0eq]
                    conv_lhs => rw [hr2eq]
                    simp [List.append_assoc]
                  · intro c hcmem
                    exact List.mem_takeWhile_imp hcmem
                  · intro c hcmem
                    exact List.mem_takeWhile_imp hcmem
                  · intro c hcmem
                    exact List.mem_takeWhile_imp hcmem
              · simp at h
          · simp at h
        · simp at h
    · simp at h
  · rintro ⟨own, repo, num, r, hl, hown, hrepo, hnum, hw1, hw2, hw3⟩
    subst hl
    have hslash : isWordChar '/' = false := by decide
    have hshape0 : ghUrlStart ++ own ++ '/' :: (repo ++ pullSegment ++ num ++ r)
        = ghUrlStart ++ (own ++ '/' :: (repo ++ pullSegment ++ num ++ r)) := by
      simp [List.append_assoc]
    have hpre : ghUrlStart.isPrefixOf
        (ghUrlStart ++ own ++ '/' :: (repo ++ pullSegment ++ num ++ r)) = true := by
      apply List.isPrefixOf_iff_prefix.mpr
      exact ⟨own ++ '/' :: (repo ++ pullSegment ++ num ++ r), hshape0.symm⟩
    have hdropgh : (ghUrlStart ++ own ++ '/' :: (repo ++ pullSegment ++ num ++ r)).drop
          ghUrlStart.length
        = own ++ '/' :: (repo ++ pullSegment ++ num ++ r) := by
      rw [hshape0, List.drop_left]
    have htkown : (own ++ '/' :: (repo ++ pullSegment ++ num ++ r)).takeWhile
        isWordChar = own := by
      rw [List.takeWhile_append_of_pos hw1]
      simp [List.takeWhile_cons, hslash]
    have hdrown : (own ++ '/' :: (repo ++ pullSegment ++ num ++ r)).dropWhile
        isWordChar = '/' :: (repo ++ pullSegment ++ num ++ r) := by
      rw [List.dropWhile_append_of_pos hw1]
      simp [List.dropWhile_cons, hslash]
    have hps : pullSegment = '/' :: "pull/".data := rfl
    have hshape1 : repo ++ pullSegment ++ num ++ r
        = repo ++ (pullSegment ++ (num ++ r)) := by
      simp [List.append_assoc]
    have htkrepo : (repo ++ pullSegment ++ num ++ r).takeWhile isWordChar
        = repo := by
      rw [hshape1, List.takeWhile_append_of_pos hw2, hps, List.cons_append]
      simp [List.takeWhile_cons, hslash]
    have hdrrepo : (repo ++ pullSegment ++ num ++ r).dropWhile isWordChar
        = pullSegment ++ (num ++ r) := by
      rw [hshape1, List.dropWhile_append_of_pos hw2, hps, List.cons_append]
      simp [List.dropWhile_cons, hslash]
    have hpull2 : pullSegment.isPrefixOf (pullSegment ++ (num ++ r)) = true :=
      List.isPrefixOf_iff_prefix.mpr ⟨num ++ r, rfl⟩
    have hdrop2 : (pullSegment ++ (num ++ r)).drop pullSegment.length
        = num ++ r := List.drop_left _ _
    have htknum : (num ++ r).takeWhile Char.isDigit ≠ [] := by
      rcases num with _ | ⟨c2, num'⟩
      · exact absurd rfl hnum
      · have hc2 : Char.isDigit c2 = true := hw3 c2 (by simp)
        simp [List.takeWhile_cons, hc2]
    simp only [matchPRAt, hpre, if_true, hdropgh, htkown, hdrown, htkrepo,
      hdrrepo, hpull2, hdrop2]
    simp [hown, hrepo, htknum]

theorem extractReleaseNumber_isSome_iff (body : List Char) :
    (extractReleaseNumber body).isSome = true ↔ ReleasePatternP body := by
  constructor
  · intro h
    simp only [extractReleaseNumber] at h
    split at h
    · simp at h
    case h_2 pr hff =>
      have hsound := ffs_sound _ _ pr.1 pr.2 hff
      obtain ⟨x, y, hxy, hfy⟩ := (scanAfterNewline_isSome _ _).mp h
      obtain ⟨d1, d2, r, hy, h1, h2, hd1, hd2⟩ := (matchVersionAt_isSome _).mp hfy
      refine ⟨pr.1, x, d1, d2, r, ?_, h1, h2, hd1, hd2⟩
      rw [hsound, hxy, hy]
      simp [List.append_assoc]
  · rintro ⟨a, m, d1, d2, r, hbody, h1, h2, hd1, hd2⟩
    obtain ⟨⟨a1, rest1⟩, hff⟩ := ffs_complete releaseQuestion body a
      (m ++ '\n' :: (d1 ++ '.' :: (d2 ++ r)))
      (by rw [hbody]; simp [List.append_assoc])
    have hsound := ffs_sound _ _ _ _ hff
    have hmin := ffs_min _ _ _ _ hff a
      (m ++ '\n' :: (d1 ++ '.' :: (d2 ++ r)))
      (by rw [hbody]; simp [List.append_assoc])
    have hsuf1 : ('\n' :: (d1 ++ '.' :: (d2 ++ r))) <:+ body :=
      ⟨a ++ releaseQuestion ++ m, hbody.symm⟩
    have hsuf2 : rest1 <:+ body := ⟨a1 ++ releaseQuestion, hsound.symm⟩
    have hlen : ('\n' :: (d1 ++ '.' :: (d2 ++ r))).length ≤ rest1.length := by
      have hlb := congrArg List.length hbody
      have hls := congrArg List.length hsound
      simp only [List.length_append, List.length_cons] at hlb hls ⊢
      omega
    obtain ⟨x, hx⟩ := List.suffix_of_suffix_length_le hsuf1 hsuf2 hlen
    simp only [extractReleaseNumber, hff]
    apply (scanAfterNewline_isSome _ _).mpr
    refine ⟨x, d1 ++ '.' :: (d2 ++ r), hx.symm, ?_⟩
    apply (matchVersionAt_isSome _).mpr
    exact ⟨d1, d2, r, rfl, h1, h2, hd1, hd2⟩

theorem extractPRNumber_isSome_iff (body : List Char) :
    (extractPRNumber body).isSome = true ↔ PRPatternP body := by
  constructor
  · intro h
    simp only [extractPRNumber] at h
    split at h
    · simp at h
    case h_2 pr hff =>
      have hsound := ffs_sound _ _ pr.1 pr.2 hff
      obtain ⟨x, y, hxy, hfy⟩ := (scanAfterNewline_isSome _ _).mp h
      obtain ⟨own, repo, num, r, hy, h1, h2, h3, hw1, hw2, hw3⟩ :=
        (matchPRAt_isSome _).mp hfy
      refine ⟨pr.1, x, own, repo, num, r, ?_, h1, h2, h3, hw1, hw2, hw3⟩
      rw [hsound, hxy, hy]
      simp [List.append_assoc]
  · rintro ⟨a, m, own, repo, num, r, hbody, h1, h2, h3, hw1, hw2, hw3⟩
    obtain ⟨⟨a1, rest1⟩, hff⟩ := ffs_complete prQuestion body a
      (m ++ '\n' :: (ghUrlStart ++ own ++ '/' :: (repo ++ pullSegment ++ num ++ r)))
      (by rw [hbody]; simp [List.append_assoc])
    have hsound := ffs_sound _ _ _ _ hff
    have hmin := ffs_min _ _ _ _ hff a
      (m ++ '\n' :: (ghUrlStart ++ own ++ '/' :: (repo ++ pullSegment ++ num ++ r)))
      (by rw [hbody]; simp [List.append_assoc])
    have hsuf1 : ('\n' :: (ghUrlStart ++ own ++ '/' ::
        (repo ++ pullSegment ++ num ++ r))) <:+ body :=
      ⟨a ++ prQuestion ++ m, hbody.symm⟩
    have hsuf2 : rest1 <:+ body := ⟨a1 ++ prQuestion, hsound.symm⟩
    have hlen : ('\n' :: (ghUrlStart ++ own ++ '/' ::
        (repo ++ pullSegment ++ num ++ r))).length ≤ rest1.length := by
      have hlb := congrArg List.length hbody
      have hls := congrArg List.length hsound
      simp only [List.length_append, List.length_cons] at hlb hls ⊢
      omega
    obtain ⟨x, hx⟩ := List.suffix_of_suffix_length_le hsuf1 hsuf2 hlen
    simp only [extractPRNumber, hff]
    apply (scanAfterNewline_isSome _ _).mpr
    refine ⟨x, ghUrlStart ++ own ++ '/' :: (repo ++ pullSegment ++ num ++ r),
      hx.symm, ?_⟩
    apply (matchPRAt_isSome _).mpr
    exact ⟨own, repo, num, r, rfl, h1, h2, h3, hw1, hw2, hw3⟩

/-- What the approved path does to the external systems: the PR number the
label is applied to, the label text, and the milestone set on the issue. -/
structure CFEOutcome where
  prNumber : String
  prLabel : String
  milestone : String

/-- A single-quote character, used to quote the question text inside the
failure messages exactly as the workflow scripts do. -/
def sqS : String := (Char.ofNat 39).toString

/-- The `core.setFailed` message of the `extract-release` step. -/
def relFailMsg : String :=
  "No valid release number found after the " ++ sqS
    ++ "Which release does this request apply to?" ++ sqS
    ++ " section. Aborting."

/-- The `core.setFailed` message of the `extract-pr` step. -/
def prFailMsg : String :=
  "No valid PR found after the " ++ sqS ++ "Which PR" ++ sqS
    ++ " section. Aborting."

/-- The `prep` job: extract the release number or fail the run. -/
def prepJob (body : List Char) : Except String (List Char) :=
  match extractReleaseNumber body with
  | some rel => Except.ok rel
  | none => Except.error relFailMsg

/-- The steps of the `cfe-approved` job, given the `prep` output: extract
the PR number (or fail), then add the label `cherry pick to trunk` to that
PR and apply the milestone `RELEASE_NUMBER.0` to the issue. -/
def approvedJobSteps (rel : List Char) (body : List Char) :
    Except String CFEOutcome :=
  match extractPRNumber body with
  | some pr =>
    Except.ok ⟨String.mk pr, "cherry pick to trunk", String.mk rel ++ ".0"⟩
  | none => Except.error prFailMsg

/-- The composition the workflow wires up for an issue labeled
`CFE Approved`: `cfe-approved` needs `prep`, so a failed extraction in
either job aborts the run before any mutation. -/
def cfeApprovedRun (body : List Char) : Except String CFEOutcome :=
  (prepJob body).bind (fun rel => approvedJobSteps rel body)

/-- Claim C9: release extraction succeeds exactly when the body contains the
release question followed by a MAJOR.MINOR number at the start of a later
line, and PR extraction succeeds exactly when the body contains the PR
question followed by a GitHub pull-request URL at the start of a later line;
the absence of either pattern fails the run with the respective descriptive
error message, and on the approved path the extracted PR receives the label
`cherry pick to trunk` while the issue receives the milestone equal to the
release number with `.0` appended. -/
theorem claim_C9_cfe_extraction (body : List Char) :
    ((extractReleaseNumber body).isSome = true ↔ ReleasePatternP body) ∧
    ((extractPRNumber body).isSome = true ↔ PRPatternP body) ∧
    cfeApprovedRun body =
      (match extractReleaseNumber body, extractPRNumber body with
       | none, _ => Except.error relFailMsg
       | some _, none => Except.error prFailMsg
       | some rel, some pr =>
         Except.ok ⟨String.mk pr, "cherry pick to trunk",
           String.mk rel ++ ".0"⟩) := by
  refine ⟨extractReleaseNumber_isSome_iff body, extractPRNumber_isSome_iff body, ?_⟩
  rcases hrel : extractReleaseNumber body with _ | rel
  · simp [cfeApprovedRun, prepJob, hrel, Except.bind]
  · rcases hpr : extractPRNumber body with _ | pr
    · simp [cfeApprovedRun, prepJob, approvedJobSteps, hrel, hpr, Except.bind]
    · simp [cfeApprovedRun, prepJob, approvedJobSteps, hrel, hpr, Except.bind]
